import Mathlib

/-!
Shallow embedding of src/crypto/gcm.c (iPXE's Galois/Counter Mode core).

Blocks (`union gcm_block`, 16 bytes) are modelled as `List Nat` of length 16
with every element below 256.  The underlying block cipher is an external
collaborator of the C code (`struct cipher_algorithm`); it is passed to the
embedded operations as a function `E : List Nat → List Nat` (the keyed
`cipher_encrypt`) together with, for `gcm_setkey`, the status code returned
by `cipher_setkey`.  The two static Shoup tables (`gcm_cached_mult`,
`gcm_cached_reduce`) are pure functions of the hash key in the C code (the
pointer-identity cache only avoids recomputation), so they are embedded as
`gcm_cache key`.  16-bit table entries are represented by the pair of their
bytes in block order, which is what `poly->word[0] ^= ...` consumes.
-/

namespace GCM

/-- The all-zero 16-byte block. -/
def zeroBlock : List Nat := List.replicate 16 0

/-- Big-endian value of a byte list (used for the 32-bit counter field). -/
def beVal (bs : List Nat) : Nat := bs.foldl (fun a b => a * 256 + b) 0

/-- Big-endian bytes of a 32-bit value (`cpu_to_be32`). -/
def be32bytes (v : Nat) : List Nat :=
  [v / 2 ^ 24 % 256, v / 2 ^ 16 % 256, v / 2 ^ 8 % 256, v % 256]

/-- Big-endian bytes of a 64-bit value (`cpu_to_be64`). -/
def be64bytes (v : Nat) : List Nat :=
  [v / 2 ^ 56 % 256, v / 2 ^ 48 % 256, v / 2 ^ 40 % 256, v / 2 ^ 32 % 256,
   v / 2 ^ 24 % 256, v / 2 ^ 16 % 256, v / 2 ^ 8 % 256, v % 256]

/-- `gcm_reverse`: reverse the bits of a byte.  The C loop shifts the
accumulator left eight times, so the (uninitialised) starting value of
`etyb` is irrelevant modulo 256; it is taken as 0 here. -/
def gcm_reverse (byte : Nat) : Nat :=
  (List.range 8).foldl (fun etyb k => etyb * 2 + (byte >>> k) % 2) 0

/-- `gcm_count`: add `delta` to the 32-bit big-endian counter field (the
last four bytes) modulo 2^32, leaving the first twelve bytes alone. -/
def gcm_count (ctr : List Nat) (delta : Nat) : List Nat :=
  ctr.take 12 ++ be32bytes ((beVal (ctr.drop 12) + delta) % 2 ^ 32)

/-- `gcm_xor ( src, dst, dst, len )` with `len = src.length`: XOR `src`
into the first `src.length` bytes of `dst`, leaving the tail of `dst`
unchanged. -/
def gcm_xor_into : List Nat → List Nat → List Nat
  | [], dst => dst
  | _ :: _, [] => []
  | s :: ss, d :: ds => (s ^^^ d) :: gcm_xor_into ss ds

/-- `gcm_xor_block`: XOR of two whole blocks. -/
def gcm_xor_block (src dst : List Nat) : List Nat :=
  List.zipWith (fun a b => a ^^^ b) src dst

/-- Loop body of `gcm_multiply_x`: shift every byte right one bit, pushing
the displaced low bit into the top of the next byte; returns the shifted
bytes and the final carry. -/
def mulxGo : Nat → List Nat → List Nat × Nat
  | carry, [] => ([], carry)
  | carry, b :: rest =>
    let r := mulxGo (b % 2) rest
    ((carry * 128 + b / 2) :: r.1, r.2)

/-- XOR a value into the first byte of a block (`res->byte[0] ^= ...`). -/
def xorHead (v : Nat) : List Nat → List Nat
  | [] => []
  | b :: rest => (b ^^^ v) :: rest

/-- `gcm_multiply_x`: multiply a polynomial by x (a one-bit right shift of
the big-endian representation), reducing by `GCM_POLY = 0xe1` when the
shift overflows. -/
def gcm_multiply_x (mult : List Nat) : List Nat :=
  let r := mulxGo 0 mult
  if r.2 = 0 then r.1 else xorHead 0xe1 r.1

/-- One iteration of the `gcm_cache` construction loop, updating the
reduction table (pairs of bytes in block order) and the multiplication
table at the bit-reversed index `this`. -/
def gcm_cache_step (key : List Nat)
    (tabs : List (Nat × Nat) × List (List Nat)) (i : Nat) :
    List (Nat × Nat) × List (List Nat) :=
  let this := gcm_reverse i
  if this &&& 0x80 ≠ 0 then
    let other := this &&& 0x7f
    let mult := gcm_xor_block key (tabs.2.getD other zeroBlock)
    let r := tabs.1.getD other (0, 0)
    (tabs.1.set this (r.1 ^^^ 0xe1, r.2), tabs.2.set this mult)
  else
    let other := this <<< 1
    let mult := gcm_multiply_x (tabs.2.getD other zeroBlock)
    let r := tabs.1.getD other (0, 0)
    let n := (r.1 * 256 + r.2) / 2
    (tabs.1.set this (n / 256, n % 256), tabs.2.set this mult)

/-- `gcm_cache`: build the reduction table R and multiplication table M0
for a hash key.  Entry 0 of each table keeps its zero initialisation. -/
def gcm_cache (key : List Nat) : List (Nat × Nat) × List (List Nat) :=
  (List.range' 1 255).foldl (gcm_cache_step key)
    (List.replicate 256 (0, 0), List.replicate 256 zeroBlock)

/-- The reduction-table half of one `gcm_cache` loop iteration (it reads
and writes only the reduction table, independent of the key). -/
def gcm_reduce_step (tab : List (Nat × Nat)) (i : Nat) : List (Nat × Nat) :=
  let this := gcm_reverse i
  if this &&& 0x80 ≠ 0 then
    let other := this &&& 0x7f
    let r := tab.getD other (0, 0)
    tab.set this (r.1 ^^^ 0xe1, r.2)
  else
    let other := this <<< 1
    let r := tab.getD other (0, 0)
    let n := (r.1 * 256 + r.2) / 2
    tab.set this (n / 256, n % 256)

/-- The reduction table on its own. -/
def gcm_reduce_table : List (Nat × Nat) :=
  (List.range' 1 255).foldl gcm_reduce_step (List.replicate 256 (0, 0))

/-- XOR a byte pair into the first two bytes of a block
(`poly->word[0] ^= gcm_cached_reduce[msb]`). -/
def xorHead2 (r : Nat × Nat) : List Nat → List Nat
  | b0 :: b1 :: rest => (b0 ^^^ r.1) :: (b1 ^^^ r.2) :: rest
  | other => other

/-- `gcm_multiply_x_8`: multiply by x^8 in place, via a one-byte right
shift and a reduction-table lookup on the displaced most significant
byte. -/
def gcm_multiply_x_8 (reduceTab : List (Nat × Nat)) (poly : List Nat) :
    List Nat :=
  let msb := poly.getLastD 0
  let shifted := 0 :: poly.dropLast
  xorHead2 (reduceTab.getD msb (0, 0)) shifted

/-- `gcm_multiply_key`: multiply a polynomial by the hash key using
Shoup's algorithm over the cached tables. -/
def gcm_multiply_key (key : List Nat) (poly : List Nat) : List Nat :=
  let tabs := gcm_cache key
  match poly.reverse with
  | [] => poly
  | b15 :: rest =>
    rest.foldl
      (fun res b =>
        gcm_xor_block (tabs.2.getD b zeroBlock)
          (gcm_multiply_x_8 tabs.1 res))
      (tabs.2.getD b15 zeroBlock)

/-- `struct gcm_context` (the cipher handle and key schedule are passed
separately as the function `E`). -/
structure GcmContext where
  hash : List Nat
  len_add : Nat
  len_data : Nat
  ctr : List Nat
  key : List Nat
deriving Repr, DecidableEq

/-- The hash-update part of the `gcm_process` loop, with a structural
fuel bound (one unit of fuel per input byte is more than enough, since
every iteration consumes at least one byte). -/
def gcm_hash_go (key : List Nat) : Nat → List Nat → List Nat → List Nat
  | 0, hash, _ => hash
  | fuel + 1, hash, data =>
    if data = [] then hash
    else
      gcm_hash_go key fuel
        (gcm_multiply_key key (gcm_xor_into (data.take 16) hash))
        (data.drop 16)

/-- The hash-update part of the `gcm_process` loop: absorb successive
(up to) 16-byte fragments into the running GHASH value. -/
def gcm_hash_loop (key hash data : List Nat) : List Nat :=
  gcm_hash_go key data.length hash data

/-- `gcm_process` with `dst == NULL` (no keystream activity): used for
additional data (`src == NULL`, so the additional-data bit count is
updated) and for hashing a long IV in `gcm_setiv` (`src == hash == iv`,
so the data bit count is updated).  `countData` selects the counter. -/
def gcm_process_hashonly (countData : Bool) (ctx : GcmContext)
    (data : List Nat) : GcmContext :=
  let ctx :=
    if countData then
      { ctx with len_data := (ctx.len_data + data.length * 8) % 2 ^ 64 }
    else
      { ctx with len_add := (ctx.len_add + data.length * 8) % 2 ^ 64 }
  { ctx with hash := gcm_hash_loop ctx.key ctx.hash data }

/-- The encrypt/decrypt part of the `gcm_process` loop: per fragment,
increment the counter, encrypt it, XOR the keystream prefix with the
fragment, and absorb either the input fragment (`hashSrc`, decryption)
or the output fragment (encryption) into the hash.  Returns the final
counter, the final hash and the produced output bytes. -/
def gcm_data_go (E : List Nat → List Nat) (hashSrc : Bool)
    (key : List Nat) : Nat → List Nat → List Nat → List Nat →
    List Nat × List Nat × List Nat
  | 0, ctr, hash, _ => (ctr, hash, [])
  | fuel + 1, ctr, hash, src =>
    if src = [] then (ctr, hash, [])
    else
      let frag := src.take 16
      let ctr2 := gcm_count ctr 1
      let ks := E ctr2
      let out := List.zipWith (fun a b => a ^^^ b) frag ks
      let hin := if hashSrc then frag else out
      let hash2 := gcm_multiply_key key (gcm_xor_into hin hash)
      let r := gcm_data_go E hashSrc key fuel ctr2 hash2 (src.drop 16)
      (r.1, r.2.1, out ++ r.2.2)

def gcm_data_loop (E : List Nat → List Nat) (hashSrc : Bool)
    (key ctr hash src : List Nat) : List Nat × List Nat × List Nat :=
  gcm_data_go E hashSrc key src.length ctr hash src

/-- `gcm_process` with `dst != NULL`: update the data bit count and run
the encrypt/decrypt loop. -/
def gcm_process_data (E : List Nat → List Nat) (hashSrc : Bool)
    (ctx : GcmContext) (src : List Nat) : GcmContext × List Nat :=
  let r := gcm_data_loop E hashSrc ctx.key ctx.ctr ctx.hash src
  ({ ctx with len_data := (ctx.len_data + src.length * 8) % 2 ^ 64,
              ctr := r.1, hash := r.2.1 }, r.2.2)

/-- `gcm_hash`: fill a block with the big-endian lengths, XOR in the
running hash and multiply by the hash key. -/
def gcm_hash (ctx : GcmContext) : List Nat :=
  gcm_multiply_key ctx.key
    (gcm_xor_block ctx.hash (be64bytes ctx.len_add ++ be64bytes ctx.len_data))

/-- `gcm_tag`: finalize the hash with the lengths block, rewind the
counter to the initial counter value by adding
`offset = ( -len.data ) / 128` (64-bit negation, truncated to 32 bits),
encrypt it and XOR it into the hash.  `gcm_tag` assigns no field of the
context; the returned context records that. -/
def gcm_tag (E : List Nat → List Nat) (ctx : GcmContext) :
    GcmContext × List Nat :=
  let tag0 := gcm_hash ctx
  let offset := (2 ^ 64 - ctx.len_data % 2 ^ 64) % 2 ^ 64 / 128 % 2 ^ 32
  let tmp := E (gcm_count ctx.ctr offset)
  ({ hash := ctx.hash, len_add := ctx.len_add, len_data := ctx.len_data,
     ctr := ctx.ctr, key := ctx.key },
   gcm_xor_block tmp tag0)

/-- `gcm_setkey`: zero the context, run the underlying cipher's key
schedule (whose status code is `rc`), propagate failure, derive the hash
key as the encryption of the all-zero block, and set the counter field
to big-endian 1. -/
def gcm_setkey (E : List Nat → List Nat) (rc : Int) :
    Except Int GcmContext :=
  if rc ≠ 0 then Except.error rc
  else Except.ok
    { hash := zeroBlock, len_add := 0, len_data := 0,
      ctr := List.replicate 12 0 ++ be32bytes 1, key := E zeroBlock }

/-- `gcm_setiv`: reset the non-key state, set the counter field to
big-endian 1, then either copy a 96-bit IV into place or hash a
different-length IV through `gcm_process`/`gcm_hash` into the counter
block and clear the hash and lengths again. -/
def gcm_setiv (ctx : GcmContext) (iv : List Nat) : GcmContext :=
  let ctx1 : GcmContext :=
    { ctx with hash := zeroBlock, len_add := 0, len_data := 0,
               ctr := List.replicate 12 0 ++ be32bytes 1 }
  if iv.length = 12 then
    { ctx1 with ctr := iv ++ ctx1.ctr.drop 12 }
  else
    let ctx2 := gcm_process_hashonly true ctx1 iv
    { ctx2 with hash := zeroBlock, len_add := 0, len_data := 0,
                ctr := gcm_hash ctx2 }

/-- `gcm_encrypt`: with a destination, encrypt and hash the ciphertext;
without one (`dstPresent = false`), absorb additional data. -/
def gcm_encrypt (E : List Nat → List Nat) (ctx : GcmContext)
    (src : List Nat) (dstPresent : Bool) : GcmContext × List Nat :=
  if dstPresent then gcm_process_data E false ctx src
  else (gcm_process_hashonly false ctx src, [])

/-- `gcm_decrypt`: with a destination, decrypt and hash the ciphertext
(the source); without one, absorb additional data. -/
def gcm_decrypt (E : List Nat → List Nat) (ctx : GcmContext)
    (src : List Nat) (dstPresent : Bool) : GcmContext × List Nat :=
  if dstPresent then gcm_process_data E true ctx src
  else (gcm_process_hashonly false ctx src, [])

/-- Run a sequence of additional-data calls. -/
def runAAD (E : List Nat → List Nat) (ctx : GcmContext) :
    List (List Nat) → GcmContext
  | [] => ctx
  | f :: t => runAAD E (gcm_encrypt E ctx f false).1 t

/-- Run a sequence of data (encrypting) calls, concatenating the
ciphertext fragments. -/
def runData (E : List Nat → List Nat) (ctx : GcmContext) :
    List (List Nat) → GcmContext × List Nat
  | [] => (ctx, [])
  | f :: t =>
    let r := gcm_encrypt E ctx f true
    let rest := runData E r.1 t
    (rest.1, r.2 ++ rest.2)

/-- Closed form of the reduction table: the 16-bit big-endian value at
index `m` is the XOR, over the set bits of `m`, of `0xe100` shifted right
by the bit's distance from the most significant position. -/
def rClosed (m : Nat) : Nat :=
  (List.range 8).foldl
    (fun acc p => if (m >>> p) % 2 = 1 then acc ^^^ (0xe100 >>> (7 - p)) else acc) 0

/-- The closed-form reduction-table entry as a byte pair. -/
def rClosedPair (m : Nat) : Nat × Nat := (rClosed m / 256, rClosed m % 256)

/-- Eight successive applications of `gcm_multiply_x`. -/
def mulx8iter (b : List Nat) : List Nat :=
  gcm_multiply_x (gcm_multiply_x (gcm_multiply_x (gcm_multiply_x
    (gcm_multiply_x (gcm_multiply_x (gcm_multiply_x (gcm_multiply_x b)))))))

/-- Iterated `gcm_multiply_x`. -/
def mulxPow : Nat → List Nat → List Nat
  | 0, b => b
  | n + 1, b => gcm_multiply_x (mulxPow n b)

/-- Map a binary function over a list, feeding each element the previous
element (with `p` before the first). -/
def mapPrev (g : Nat → Nat → Nat) : Nat → List Nat → List Nat
  | _, [] => []
  | p, b :: rest => g p b :: mapPrev g b rest

/-- The byte transform realised by `k` one-bit right shifts across a byte
boundary: the low `k` bits of the previous byte land on top of the high
`8 - k` bits of the current one. -/
def gk (k p b : Nat) : Nat := p % 2 ^ k * 2 ^ (8 - k) + b / 2 ^ k

/-- Well-formed block: 16 bytes, each below 256. -/
def wfBlock (b : List Nat) : Prop := b.length = 16 ∧ ∀ x ∈ b, x < 256

instance wfBlock_decidable (b : List Nat) : Decidable (wfBlock b) :=
  inferInstanceAs (Decidable (b.length = 16 ∧ ∀ x ∈ b, x < 256))

/-- GHASH as the specification words it: absorb successive 16-byte
blocks, the final partial block right-padded with zeroes, via
Y ← (Y ⊕ B) · H (fuel-based loop). -/
def ghash_go (key : List Nat) : Nat → List Nat → List Nat → List Nat
  | 0, Y, _ => Y
  | fuel + 1, Y, msg =>
    if msg = [] then Y
    else
      ghash_go key fuel
        (gcm_multiply_key key
          (gcm_xor_block
            (msg.take 16 ++ List.replicate (16 - (msg.take 16).length) 0) Y))
        (msg.drop 16)

/-- GHASH of a byte string from an accumulator. -/
def ghash_loop (key Y msg : List Nat) : List Nat :=
  ghash_go key msg.length Y msg

/-- GHASH of a byte string (specification-side definition). -/
def ghash_spec (key msg : List Nat) : List Nat :=
  ghash_loop key zeroBlock msg

/-- The specification's J₀ for a non-96-bit IV:
GHASH(H, IV ‖ 0-pad ‖ 0⁶⁴ ‖ len64(bits of IV)). -/
def ghash_j0_spec (key iv : List Nat) : List Nat :=
  ghash_spec key
    (iv ++ List.replicate ((16 - iv.length % 16) % 16) 0 ++
      List.replicate 8 0 ++ be64bytes (iv.length * 8 % 2 ^ 64))

/-! ### Basic lemmas -/

theorem shiftRight_xor_distrib (a b n : Nat) :
    (a ^^^ b) >>> n = (a >>> n) ^^^ (b >>> n) := by
  apply Nat.eq_of_testBit_eq
  intro i
  simp [Nat.testBit_shiftRight, Nat.testBit_xor]

theorem xor_div_two (a b : Nat) : (a ^^^ b) / 2 = a / 2 ^^^ b / 2 := by
  simpa [Nat.shiftRight_one] using shiftRight_xor_distrib a b 1

theorem xor_mod_two (a b : Nat) : (a ^^^ b) % 2 = a % 2 ^^^ b % 2 := by
  rw [← Nat.and_one_is_mod, ← Nat.and_one_is_mod, ← Nat.and_one_is_mod,
    Nat.and_xor_distrib_right]

theorem x128_xor_eq_add : ∀ x < 128, 128 ^^^ x = 128 + x := by decide

theorem xor_xor_cancel_left (v x y : Nat) :
    (v ^^^ x) ^^^ (v ^^^ y) = x ^^^ y := by
  rw [Nat.xor_comm v x, Nat.xor_assoc, ← Nat.xor_assoc v v y, Nat.xor_self,
    Nat.zero_xor]

theorem xor_lt_256 (a b : Nat) (ha : a < 256) (hb : b < 256) :
    a ^^^ b < 256 := by
  have := Nat.xor_lt_two_pow (n := 8) (x := a) (y := b) (by omega) (by omega)
  omega

/-- Linearity of the single mul-by-x byte step. -/
theorem mulx_byte_linear (c1 c2 a b : Nat) (hc1 : c1 < 2) (hc2 : c2 < 2)
    (ha : a < 256) (hb : b < 256) :
    (c1 ^^^ c2) * 128 + (a ^^^ b) / 2 =
      (c1 * 128 + a / 2) ^^^ (c2 * 128 + b / 2) := by
  have hd : (a ^^^ b) / 2 = a / 2 ^^^ b / 2 := xor_div_two a b
  have ha2 : a / 2 < 128 := by omega
  have hb2 : b / 2 < 128 := by omega
  have hx : a / 2 ^^^ b / 2 < 128 := by
    have := Nat.xor_lt_two_pow (n := 7) (x := a / 2) (y := b / 2)
      (by omega) (by omega)
    omega
  interval_cases c1 <;> interval_cases c2
  · simpa using hd
  · rw [show (0 : Nat) ^^^ 1 = 1 from rfl, hd, Nat.zero_mul, Nat.zero_add,
      Nat.one_mul, ← x128_xor_eq_add _ hb2, ← Nat.xor_assoc,
      Nat.xor_comm (a / 2) 128, Nat.xor_assoc, x128_xor_eq_add _ hx]
  · rw [show (1 : Nat) ^^^ 0 = 1 from rfl, hd, Nat.zero_mul, Nat.zero_add,
      Nat.one_mul, ← x128_xor_eq_add _ ha2, Nat.xor_assoc,
      x128_xor_eq_add _ hx]
  · rw [Nat.xor_self, Nat.zero_mul, Nat.zero_add, hd, Nat.one_mul,
      ← x128_xor_eq_add _ ha2, ← x128_xor_eq_add _ hb2,
      xor_xor_cancel_left]

theorem beVal_be32bytes (v : Nat) (h : v < 2 ^ 32) : beVal (be32bytes v) = v := by
  simp only [be32bytes, beVal, List.foldl]
  omega

theorem length_be32bytes (v : Nat) : (be32bytes v).length = 4 := rfl

theorem gcm_count_def (ctr : List Nat) (delta : Nat) :
    gcm_count ctr delta =
      ctr.take 12 ++ be32bytes ((beVal (ctr.drop 12) + delta) % 2 ^ 32) := rfl

theorem length_take_twelve (ctr : List Nat) (h : ctr.length = 16) :
    (ctr.take 12).length = 12 := by
  simp [List.length_take, h]

/-! ### Multiply-by-x lemmas -/

theorem mulxGo_length (c : Nat) (bs : List Nat) :
    (mulxGo c bs).1.length = bs.length := by
  induction bs generalizing c with
  | nil => rfl
  | cons b rest ih => simp [mulxGo, ih]

theorem mulxGo_snd_lt (c : Nat) (bs : List Nat) (hc : c < 2) :
    (mulxGo c bs).2 < 2 := by
  induction bs generalizing c with
  | nil => exact hc
  | cons b rest ih => exact ih (b % 2) (Nat.mod_lt b (by omega))

theorem mulxGo_fst_bounds (c : Nat) (bs : List Nat) (hc : c < 2)
    (hbs : ∀ b ∈ bs, b < 256) : ∀ x ∈ (mulxGo c bs).1, x < 256 := by
  induction bs generalizing c with
  | nil => intro x hx; cases hx
  | cons b rest ih =>
    intro x hx
    simp only [mulxGo, List.mem_cons] at hx
    rcases hx with hx | hx
    · have hb : b < 256 := hbs b (by simp)
      omega
    · exact ih (b % 2) (Nat.mod_lt b (by omega))
        (fun y hy => hbs y (by simp [hy])) x hx

theorem mulxGo_snd_append_single (c : Nat) (bs : List Nat) (b : Nat) :
    (mulxGo c (bs ++ [b])).2 = b % 2 := by
  induction bs generalizing c with
  | nil => rfl
  | cons x rest ih => simpa [mulxGo] using ih (x % 2)

theorem mulxGo_linear (a : List Nat) :
    ∀ (b : List Nat) (c1 c2 : Nat), a.length = b.length →
      (∀ x ∈ a, x < 256) → (∀ x ∈ b, x < 256) → c1 < 2 → c2 < 2 →
      mulxGo (c1 ^^^ c2) (gcm_xor_block a b) =
        (gcm_xor_block (mulxGo c1 a).1 (mulxGo c2 b).1,
         (mulxGo c1 a).2 ^^^ (mulxGo c2 b).2) := by
  induction a with
  | nil =>
    intro b c1 c2 hlen _ _ _ _
    cases b with
    | nil => rfl
    | cons x t => simp at hlen
  | cons x t ih =>
    intro b c1 c2 hlen ha hb hc1 hc2
    cases b with
    | nil => simp at hlen
    | cons y u =>
      have hx : x < 256 := ha x (by simp)
      have hy : y < 256 := hb y (by simp)
      have hrec := ih u (x % 2) (y % 2) (by simpa using hlen)
        (fun z hz => ha z (by simp [hz])) (fun z hz => hb z (by simp [hz]))
        (Nat.mod_lt x (by omega)) (Nat.mod_lt y (by omega))
      simp only [gcm_xor_block, List.zipWith_cons_cons] at hrec ⊢
      simp only [mulxGo]
      rw [xor_mod_two x y, hrec]
      simp only [List.zipWith_cons_cons, Prod.mk.injEq, List.cons.injEq,
        and_true, true_and]
      exact mulx_byte_linear c1 c2 x y hc1 hc2 hx hy

theorem xor_left_comm (a b c : Nat) : a ^^^ (b ^^^ c) = b ^^^ (a ^^^ c) := by
  rw [← Nat.xor_assoc, Nat.xor_comm a b, Nat.xor_assoc]

theorem xorHead_zip_left (v : Nat) (a b : List Nat) :
    gcm_xor_block (xorHead v a) b =
      xorHead v (gcm_xor_block a b) := by
  cases a with
  | nil => rfl
  | cons x t =>
    cases b with
    | nil => rfl
    | cons y u =>
      simp [xorHead, gcm_xor_block, Nat.xor_assoc, Nat.xor_comm,
        xor_left_comm]

theorem xorHead_zip_right (v : Nat) (a b : List Nat) :
    gcm_xor_block a (xorHead v b) =
      xorHead v (gcm_xor_block a b) := by
  cases a with
  | nil => rfl
  | cons x t =>
    cases b with
    | nil => rfl
    | cons y u =>
      simp [xorHead, gcm_xor_block, Nat.xor_assoc, Nat.xor_comm,
        xor_left_comm]

theorem xorHead_xorHead (v : Nat) (l : List Nat) :
    xorHead v (xorHead v l) = l := by
  cases l with
  | nil => rfl
  | cons b rest => simp [xorHead, Nat.xor_assoc, Nat.xor_self, Nat.xor_zero]

theorem xorHead_zip_both (v : Nat) (a b : List Nat) :
    gcm_xor_block (xorHead v a) (xorHead v b) = gcm_xor_block a b := by
  cases a with
  | nil => rfl
  | cons x t =>
    cases b with
    | nil => rfl
    | cons y u =>
      simp only [xorHead, gcm_xor_block, List.zipWith_cons_cons,
        List.cons.injEq]
      refine ⟨?_, trivial⟩
      rw [Nat.xor_comm x v, Nat.xor_comm y v, xor_xor_cancel_left]

theorem gcm_multiply_x_linear (a b : List Nat) (hlen : a.length = b.length)
    (ha : ∀ x ∈ a, x < 256) (hb : ∀ x ∈ b, x < 256) :
    gcm_multiply_x (gcm_xor_block a b) =
      gcm_xor_block (gcm_multiply_x a) (gcm_multiply_x b) := by
  have hgo := mulxGo_linear a b 0 0 hlen ha hb (by omega) (by omega)
  rw [show (0 : Nat) ^^^ 0 = 0 from rfl] at hgo
  have hca := mulxGo_snd_lt 0 a (by omega)
  have hcb := mulxGo_snd_lt 0 b (by omega)
  have h1 : (mulxGo 0 a).2 = 0 ∨ (mulxGo 0 a).2 = 1 := by omega
  have h2 : (mulxGo 0 b).2 = 0 ∨ (mulxGo 0 b).2 = 1 := by omega
  rcases h1 with h1 | h1 <;> rcases h2 with h2 | h2 <;>
    simp [gcm_multiply_x, hgo, h1, h2, xorHead_zip_left, xorHead_zip_right,
      xorHead_zip_both, xorHead_xorHead]

theorem xorHead_length (v : Nat) (l : List Nat) :
    (xorHead v l).length = l.length := by
  cases l <;> rfl

theorem xorHead_bounds (v : Nat) (l : List Nat) (hv : v < 256)
    (h : ∀ b ∈ l, b < 256) : ∀ x ∈ xorHead v l, x < 256 := by
  cases l with
  | nil => intro x hx; cases hx
  | cons b rest =>
    intro x hx
    rcases List.mem_cons.mp hx with hx | hx
    · subst hx; exact xor_lt_256 b v (h b (by simp)) hv
    · exact h x (by simp [hx])

theorem gcm_multiply_x_length (bs : List Nat) :
    (gcm_multiply_x bs).length = bs.length := by
  by_cases hc : (mulxGo 0 bs).2 = 0 <;>
    simp [gcm_multiply_x, hc, xorHead_length, mulxGo_length]

theorem gcm_multiply_x_bounds (bs : List Nat) (h : ∀ b ∈ bs, b < 256) :
    ∀ x ∈ gcm_multiply_x bs, x < 256 := by
  by_cases hc : (mulxGo 0 bs).2 = 0
  · simpa [gcm_multiply_x, hc] using mulxGo_fst_bounds 0 bs (by omega) h
  · simpa [gcm_multiply_x, hc] using
      xorHead_bounds 0xe1 _ (by omega) (mulxGo_fst_bounds 0 bs (by omega) h)

theorem mulxPow_length (n : Nat) (bs : List Nat) :
    (mulxPow n bs).length = bs.length := by
  induction n with
  | zero => rfl
  | succ n ih => rw [mulxPow, gcm_multiply_x_length, ih]

theorem mulxPow_bounds (n : Nat) (bs : List Nat) (h : ∀ b ∈ bs, b < 256) :
    ∀ x ∈ mulxPow n bs, x < 256 := by
  induction n with
  | zero => exact h
  | succ n ih => exact gcm_multiply_x_bounds _ ih

theorem mulxPow_linear (n : Nat) (a b : List Nat) (hlen : a.length = b.length)
    (ha : ∀ x ∈ a, x < 256) (hb : ∀ x ∈ b, x < 256) :
    mulxPow n (gcm_xor_block a b) =
      gcm_xor_block (mulxPow n a) (mulxPow n b) := by
  induction n with
  | zero => rfl
  | succ n ih =>
    rw [mulxPow, ih, mulxPow, mulxPow]
    exact gcm_multiply_x_linear _ _
      (by rw [mulxPow_length, mulxPow_length, hlen])
      (mulxPow_bounds n a ha) (mulxPow_bounds n b hb)

theorem mulx8iter_eq_mulxPow (bs : List Nat) : mulx8iter bs = mulxPow 8 bs := rfl

/-! ### The eight-round shift decomposition -/

theorem mapPrev_append_single (g : Nat → Nat → Nat) (a : List Nat)
    (p b : Nat) :
    mapPrev g p (a ++ [b]) = mapPrev g p a ++ [g (a.getLastD p) b] := by
  induction a generalizing p with
  | nil => rfl
  | cons x t ih =>
    simp only [List.cons_append, mapPrev, List.getLastD_cons, List.append_eq]
    rw [ih x]

theorem mulxGo_fst_eq_mapPrev (bs : List Nat) :
    ∀ c p, c = p % 2 → (mulxGo c bs).1 = mapPrev (gk 1) p bs := by
  induction bs with
  | nil => intro c p _; rfl
  | cons b rest ih =>
    intro c p hc
    simp only [mulxGo, mapPrev, List.cons.injEq]
    constructor
    · show c * 128 + b / 2 = p % 2 ^ 1 * 2 ^ (8 - 1) + b / 2 ^ 1
      subst hc
      norm_num
    · exact ih (b % 2) b rfl

theorem gk_mod_two (k y b : Nat) (hk : k ≤ 7) :
    gk k y b % 2 = b / 2 ^ k % 2 := by
  interval_cases k <;> (simp only [gk]; omega)

theorem gk_comp (k q y b : Nat) (hk : k ≤ 7) (hy : y < 256) (hb : b < 256)
    (hq : q % 2 = y / 2 ^ k % 2) :
    gk 1 q (gk k y b) = gk (k + 1) y b := by
  interval_cases k <;> (simp only [gk] at hq ⊢; omega)

theorem mapPrev_comp (k : Nat) (hk : k ≤ 7) (bs : List Nat) :
    ∀ q y, y < 256 → q % 2 = y / 2 ^ k % 2 → (∀ b ∈ bs, b < 256) →
      mapPrev (gk 1) q (mapPrev (gk k) y bs) = mapPrev (gk (k + 1)) y bs := by
  induction bs with
  | nil => intro q y _ _ _; rfl
  | cons b rest ih =>
    intro q y hy hq hbs
    have hb : b < 256 := hbs b (by simp)
    simp only [mapPrev, List.cons.injEq]
    exact ⟨gk_comp k q y b hk hy hb hq,
      ih (gk k y b) b hb (gk_mod_two k y b hk)
        (fun z hz => hbs z (by simp [hz]))⟩

theorem roundStep (k : Nat) (hk7 : k ≤ 7) (a : List Nat)
    (ha : ∀ b ∈ a, b < 256) :
    gcm_multiply_x (mapPrev (gk k) 0 (a ++ [0])) =
      mapPrev (gk (k + 1)) 0 (a ++ [0]) := by
  have hx : mapPrev (gk k) 0 (a ++ [0]) =
      mapPrev (gk k) 0 a ++ [gk k (a.getLastD 0) 0] :=
    mapPrev_append_single (gk k) a 0 0
  have hcarry : (mulxGo 0 (mapPrev (gk k) 0 (a ++ [0]))).2 = 0 := by
    rw [hx, mulxGo_snd_append_single]
    have : ∀ m, gk k m 0 % 2 = 0 := by
      intro m
      rw [gk_mod_two k m 0 hk7, Nat.zero_div]
    exact this _
  unfold gcm_multiply_x
  rw [if_pos hcarry, mulxGo_fst_eq_mapPrev _ 0 0 rfl]
  refine mapPrev_comp k hk7 (a ++ [0]) 0 0 (by omega) ?_ ?_
  · rw [Nat.zero_div]
  · intro b hb
    rcases List.mem_append.mp hb with hb | hb
    · exact ha b hb
    · simp at hb; omega

theorem mapPrev_gk8 (rest : List Nat) :
    ∀ b p, p < 256 → b < 256 → (∀ x ∈ rest, x < 256) →
      mapPrev (gk 8) p (b :: rest) = p :: (b :: rest).dropLast := by
  induction rest with
  | nil =>
    intro b p hp hb _
    simp only [mapPrev, List.dropLast_single, List.cons.injEq]
    refine ⟨?_, trivial⟩
    simp only [gk]
    omega
  | cons c t ih =>
    intro b p hp hb hrest
    have hc : c < 256 := hrest c (by simp)
    have h1 : mapPrev (gk 8) p (b :: c :: t) =
        gk 8 p b :: mapPrev (gk 8) b (c :: t) := rfl
    rw [h1, ih c b hb hc (fun z hz => hrest z (by simp [hz]))]
    have hgk : gk 8 p b = p := by simp only [gk]; omega
    rw [hgk]
    rfl

theorem mulx8iter_shift (a : List Nat) (ha : ∀ b ∈ a, b < 256)
    (hne : a ≠ []) :
    mulx8iter (a ++ [0]) = 0 :: a := by
  have hbounds : ∀ b ∈ a ++ [0], b < 256 := by
    intro b hb
    rcases List.mem_append.mp hb with hb | hb
    · exact ha b hb
    · simp at hb; omega
  have h1 : gcm_multiply_x (a ++ [0]) = mapPrev (gk 1) 0 (a ++ [0]) := by
    unfold gcm_multiply_x
    rw [if_pos (by rw [mulxGo_snd_append_single])]
    exact mulxGo_fst_eq_mapPrev _ 0 0 rfl
  have hstep := fun k hk7 => roundStep k hk7 a ha
  have hfinal : mapPrev (gk 8) 0 (a ++ [0]) = 0 :: a := by
    cases a with
    | nil => exact absurd rfl hne
    | cons x t =>
      rw [List.cons_append, mapPrev_gk8 (t ++ [0]) x 0 (by omega)
        (ha x (by simp))
        (fun z hz => hbounds z
          (by rw [List.cons_append]; exact List.mem_cons_of_mem x hz))]
      rw [← List.cons_append, List.dropLast_concat]
  unfold mulx8iter
  rw [h1, hstep 1 (by omega), hstep 2 (by omega),
    hstep 3 (by omega), hstep 4 (by omega),
    hstep 5 (by omega), hstep 6 (by omega),
    hstep 7 (by omega), hfinal]

/-! ### Reduction table lemmas -/

theorem gcm_cache_step_fst (key : List Nat)
    (rm : List (Nat × Nat) × List (List Nat)) (i : Nat) :
    (gcm_cache_step key rm i).1 = gcm_reduce_step rm.1 i := by
  by_cases h : gcm_reverse i &&& 0x80 ≠ 0 <;>
    simp [gcm_cache_step, gcm_reduce_step, h]

theorem cache_foldl_fst (key : List Nat) (l : List Nat) :
    ∀ (rm : List (Nat × Nat) × List (List Nat)),
      (l.foldl (gcm_cache_step key) rm).1 = l.foldl gcm_reduce_step rm.1 := by
  induction l with
  | nil => intro rm; rfl
  | cons i t ih =>
    intro rm
    simp only [List.foldl_cons]
    rw [ih (gcm_cache_step key rm i), gcm_cache_step_fst]

theorem gcm_cache_fst (key : List Nat) :
    (gcm_cache key).1 = gcm_reduce_table :=
  cache_foldl_fst key (List.range' 1 255) _

set_option maxRecDepth 10000 in
theorem reduce_table_closed :
    ∀ m < 256, gcm_reduce_table.getD m (0, 0) = rClosedPair m := by decide

set_option maxRecDepth 10000 in
theorem mulx8iter_basis :
    ∀ c < 256, mulx8iter (List.replicate 15 0 ++ [c]) =
      rClosed c / 256 :: rClosed c % 256 :: List.replicate 14 0 := by decide

theorem zip_zero_right (l : List Nat) :
    ∀ n, l.length ≤ n → gcm_xor_block l (List.replicate n 0) = l := by
  induction l with
  | nil => intro n _; rfl
  | cons x t ih =>
    intro n hn
    cases n with
    | zero => simp at hn
    | succ n =>
      simp only [List.replicate_succ, gcm_xor_block, List.zipWith_cons_cons,
        Nat.xor_zero]
      rw [show List.zipWith (fun a b => a ^^^ b) t (List.replicate n 0) =
        gcm_xor_block t (List.replicate n 0) from rfl, ih n (by simpa using hn)]

theorem xorHead2_as_zip (r1 r2 : Nat) (t : List Nat) (h : t.length = 15) :
    xorHead2 (r1, r2) (0 :: t) =
      gcm_xor_block (0 :: t) (r1 :: r2 :: List.replicate 14 0) := by
  cases t with
  | nil => simp at h
  | cons x u =>
    simp only [xorHead2, gcm_xor_block, List.zipWith_cons_cons]
    rw [show List.zipWith (fun a b => a ^^^ b) u (List.replicate 14 0) =
      gcm_xor_block u (List.replicate 14 0) from rfl,
      zip_zero_right u 14 (by simp at h; omega)]

/-! ### Loop unfolding and append lemmas -/

theorem gcm_hash_go_nil (key : List Nat) (fuel : Nat) (hash : List Nat) :
    gcm_hash_go key fuel hash [] = hash := by
  cases fuel <;> rfl

theorem gcm_hash_go_irrel (key : List Nat) :
    ∀ f1 f2 data hash, data.length ≤ f1 → data.length ≤ f2 →
      gcm_hash_go key f1 hash data = gcm_hash_go key f2 hash data := by
  intro f1
  induction f1 with
  | zero =>
    intro f2 data hash h1 _
    have : data = [] := by
      cases data with
      | nil => rfl
      | cons x t => simp at h1
    subst this
    rw [gcm_hash_go_nil, gcm_hash_go_nil]
  | succ f1 ih =>
    intro f2 data hash h1 h2
    by_cases hd : data = []
    · subst hd
      rw [gcm_hash_go_nil, gcm_hash_go_nil]
    · have hpos : 0 < data.length := List.length_pos.mpr hd
      cases f2 with
      | zero => omega
      | succ f2 =>
        simp only [gcm_hash_go, if_neg hd]
        exact ih f2 (data.drop 16) _ (by simp; omega) (by simp; omega)

theorem gcm_hash_loop_nil (key hash : List Nat) :
    gcm_hash_loop key hash [] = hash := rfl

theorem gcm_hash_loop_ne (key hash data : List Nat) (h : data ≠ []) :
    gcm_hash_loop key hash data =
      gcm_hash_loop key
        (gcm_multiply_key key (gcm_xor_into (data.take 16) hash))
        (data.drop 16) := by
  have hpos : 0 < data.length := List.length_pos.mpr h
  unfold gcm_hash_loop
  obtain ⟨n, hn⟩ : ∃ n, data.length = n + 1 := ⟨data.length - 1, by omega⟩
  rw [hn]
  simp only [gcm_hash_go, if_neg h]
  exact gcm_hash_go_irrel key n (data.drop 16).length (data.drop 16) _
    (by simp; omega) (by omega)

theorem gcm_hash_loop_append (key : List Nat) (n : Nat) :
    ∀ a : List Nat, a.length = n → 16 ∣ n → ∀ hash b,
      gcm_hash_loop key hash (a ++ b) =
        gcm_hash_loop key (gcm_hash_loop key hash a) b := by
  induction n using Nat.strong_induction_on with
  | _ n ih =>
    intro a hlen hdvd hash b
    by_cases hnil : a = []
    · subst hnil
      rw [List.nil_append, gcm_hash_loop_nil]
    · have hpos : 0 < a.length := List.length_pos.mpr hnil
      have hge : 16 ≤ n := by
        rcases hdvd with ⟨c, hc⟩
        omega
    -- a block remains: peel it off both sides and recurse
      rw [gcm_hash_loop_ne key hash (a ++ b) (by simp [hnil]),
        gcm_hash_loop_ne key hash a hnil,
        List.take_append_of_le_length (by omega),
        List.drop_append_of_le_length (by omega)]
      exact ih (n - 16) (by omega) (a.drop 16) (by simp [hlen])
        (Nat.dvd_sub' hdvd (by norm_num)) _ b

theorem gcm_data_go_nil (E : List Nat → List Nat) (hs : Bool)
    (key : List Nat) (fuel : Nat) (ctr hash : List Nat) :
    gcm_data_go E hs key fuel ctr hash [] = (ctr, hash, []) := by
  cases fuel <;> rfl

theorem gcm_data_go_irrel (E : List Nat → List Nat) (hs : Bool)
    (key : List Nat) :
    ∀ f1 f2 src ctr hash, src.length ≤ f1 → src.length ≤ f2 →
      gcm_data_go E hs key f1 ctr hash src =
        gcm_data_go E hs key f2 ctr hash src := by
  intro f1
  induction f1 with
  | zero =>
    intro f2 src ctr hash h1 _
    have : src = [] := by
      cases src with
      | nil => rfl
      | cons x t => simp at h1
    subst this
    rw [gcm_data_go_nil, gcm_data_go_nil]
  | succ f1 ih =>
    intro f2 src ctr hash h1 h2
    by_cases hd : src = []
    · subst hd
      rw [gcm_data_go_nil, gcm_data_go_nil]
    · have hpos : 0 < src.length := List.length_pos.mpr hd
      cases f2 with
      | zero => omega
      | succ f2 =>
        simp only [gcm_data_go, if_neg hd]
        rw [ih f2 (src.drop 16) _ _ (by simp; omega) (by simp; omega)]

theorem gcm_data_loop_nil (E : List Nat → List Nat) (hs : Bool)
    (key ctr hash : List Nat) :
    gcm_data_loop E hs key ctr hash [] = (ctr, hash, []) := rfl

theorem gcm_data_loop_ne (E : List Nat → List Nat) (hs : Bool)
    (key ctr hash src : List Nat) (h : src ≠ []) :
    gcm_data_loop E hs key ctr hash src =
      (let frag := src.take 16
       let ctr2 := gcm_count ctr 1
       let ks := E ctr2
       let out := List.zipWith (fun a b => a ^^^ b) frag ks
       let hin := if hs then frag else out
       let hash2 := gcm_multiply_key key (gcm_xor_into hin hash)
       let r := gcm_data_loop E hs key ctr2 hash2 (src.drop 16)
       (r.1, r.2.1, out ++ r.2.2)) := by
  have hpos : 0 < src.length := List.length_pos.mpr h
  unfold gcm_data_loop
  obtain ⟨n, hn⟩ : ∃ n, src.length = n + 1 := ⟨src.length - 1, by omega⟩
  rw [hn]
  simp only [gcm_data_go, if_neg h]
  rw [gcm_data_go_irrel E hs key n (src.drop 16).length (src.drop 16) _ _
    (by simp; omega) (by omega)]

theorem gcm_data_loop_append (E : List Nat → List Nat) (hs : Bool)
    (key : List Nat) (n : Nat) :
    ∀ a : List Nat, a.length = n → 16 ∣ n → ∀ ctr hash b,
      gcm_data_loop E hs key ctr hash (a ++ b) =
        ((gcm_data_loop E hs key
            (gcm_data_loop E hs key ctr hash a).1
            (gcm_data_loop E hs key ctr hash a).2.1 b).1,
         (gcm_data_loop E hs key
            (gcm_data_loop E hs key ctr hash a).1
            (gcm_data_loop E hs key ctr hash a).2.1 b).2.1,
         (gcm_data_loop E hs key ctr hash a).2.2 ++
           (gcm_data_loop E hs key
              (gcm_data_loop E hs key ctr hash a).1
              (gcm_data_loop E hs key ctr hash a).2.1 b).2.2) := by
  induction n using Nat.strong_induction_on with
  | _ n ih =>
    intro a hlen hdvd ctr hash b
    by_cases hnil : a = []
    · subst hnil
      rw [List.nil_append, gcm_data_loop_nil]
      simp
    · have hpos : 0 < a.length := List.length_pos.mpr hnil
      have hge : 16 ≤ n := by
        rcases hdvd with ⟨c, hc⟩
        omega
      rw [gcm_data_loop_ne E hs key ctr hash (a ++ b) (by simp [hnil]),
        gcm_data_loop_ne E hs key ctr hash a hnil,
        List.take_append_of_le_length (by omega),
        List.drop_append_of_le_length (by omega)]
      simp only []
      rw [ih (n - 16) (by omega) (a.drop 16) (by simp [hlen])
        (Nat.dvd_sub' hdvd (by norm_num)) _ _ b]
      simp [List.append_assoc]

theorem gcm_process_hashonly_append (cd : Bool) (ctx : GcmContext)
    (a b : List Nat) (hdvd : 16 ∣ a.length) :
    gcm_process_hashonly cd (gcm_process_hashonly cd ctx a) b =
      gcm_process_hashonly cd ctx (a ++ b) := by
  cases ctx
  cases cd <;>
    (simp [gcm_process_hashonly, GcmContext.mk.injEq,
      ← gcm_hash_loop_append _ a.length a rfl hdvd]
     omega)

theorem gcm_process_data_append (E : List Nat → List Nat) (hs : Bool)
    (ctx : GcmContext) (a b : List Nat) (hdvd : 16 ∣ a.length) :
    (gcm_process_data E hs ctx (a ++ b)).1 =
      (gcm_process_data E hs (gcm_process_data E hs ctx a).1 b).1 ∧
    (gcm_process_data E hs ctx (a ++ b)).2 =
      (gcm_process_data E hs ctx a).2 ++
        (gcm_process_data E hs (gcm_process_data E hs ctx a).1 b).2 := by
  cases ctx with
  | mk h0 la ld c0 k0 =>
    have hloop := gcm_data_loop_append E hs k0 a.length a rfl hdvd c0 h0 b
    constructor
    · simp only [gcm_process_data, hloop]
      simp [GcmContext.mk.injEq, List.length_append]
      try omega
    · simp only [gcm_process_data, hloop]
      try simp

theorem gcm_process_hashonly_false_frame (ctx : GcmContext)
    (a : List Nat) :
    (gcm_process_hashonly false ctx a).len_data = ctx.len_data ∧
      (gcm_process_hashonly false ctx a).ctr = ctx.ctr ∧
      (gcm_process_hashonly false ctx a).key = ctx.key := by
  exact ⟨rfl, rfl, rfl⟩

theorem runAAD_frame (E : List Nat → List Nat) (frags : List (List Nat)) :
    ∀ ctx, (runAAD E ctx frags).len_data = ctx.len_data ∧
      (runAAD E ctx frags).ctr = ctx.ctr ∧
      (runAAD E ctx frags).key = ctx.key := by
  induction frags with
  | nil => intro ctx; exact ⟨rfl, rfl, rfl⟩
  | cons f t ih =>
    intro ctx
    exact ih (gcm_encrypt E ctx f false).1

theorem gcm_process_data_len_lt (E : List Nat → List Nat) (hs : Bool)
    (ctx : GcmContext) (src : List Nat) :
    (gcm_process_data E hs ctx src).1.len_data < 2 ^ 64 := by
  simp only [gcm_process_data]
  exact Nat.mod_lt _ (by norm_num)

theorem runAAD_fragments (E : List Nat → List Nat)
    (frags : List (List Nat)) :
    ∀ ctx, (∀ f ∈ frags.dropLast, 16 ∣ f.length) → ctx.len_add < 2 ^ 64 →
      runAAD E ctx frags =
        gcm_process_hashonly false ctx frags.flatten := by
  induction frags with
  | nil =>
    intro ctx _ hla
    show ctx = gcm_process_hashonly false ctx []
    cases ctx with
    | mk h0 la ld c0 k0 =>
      have hla2 : la < 2 ^ 64 := hla
      simp [gcm_process_hashonly, gcm_hash_loop_nil]
      omega
  | cons f t ih =>
    intro ctx hdvd hla
    by_cases ht : t = []
    · subst ht
      show (gcm_encrypt E ctx f false).1 =
        gcm_process_hashonly false ctx ([f].flatten)
      simp [gcm_encrypt]
    · have hf : 16 ∣ f.length := by
        refine hdvd f ?_
        rw [List.dropLast_cons_of_ne_nil ht]
        simp
      have hsub : ∀ g ∈ t.dropLast, 16 ∣ g.length := by
        intro g hg
        refine hdvd g ?_
        rw [List.dropLast_cons_of_ne_nil ht]
        simp [hg]
      have hla2 : (gcm_process_hashonly false ctx f).len_add < 2 ^ 64 := by
        simp only [gcm_process_hashonly]
        exact Nat.mod_lt _ (by norm_num)
      show runAAD E (gcm_encrypt E ctx f false).1 t = _
      rw [show (gcm_encrypt E ctx f false).1 =
        gcm_process_hashonly false ctx f from rfl]
      rw [ih (gcm_process_hashonly false ctx f) hsub hla2,
        gcm_process_hashonly_append false ctx f t.flatten hf]
      simp

theorem runData_fragments (E : List Nat → List Nat)
    (frags : List (List Nat)) :
    ∀ ctx, (∀ f ∈ frags.dropLast, 16 ∣ f.length) → ctx.len_data < 2 ^ 64 →
      runData E ctx frags = gcm_process_data E false ctx frags.flatten := by
  induction frags with
  | nil =>
    intro ctx _ hld
    show (ctx, []) = gcm_process_data E false ctx []
    cases ctx with
    | mk h0 la ld c0 k0 =>
      have hld2 : ld < 2 ^ 64 := hld
      simp [gcm_process_data, gcm_data_loop_nil]
      omega
  | cons f t ih =>
    intro ctx hdvd hld
    by_cases ht : t = []
    · subst ht
      show ((runData E (gcm_encrypt E ctx f true).1 []).1, _) =
        gcm_process_data E false ctx ([f].flatten)
      simp [runData, gcm_encrypt]
    · have hf : 16 ∣ f.length := by
        refine hdvd f ?_
        rw [List.dropLast_cons_of_ne_nil ht]
        simp
      have hsub : ∀ g ∈ t.dropLast, 16 ∣ g.length := by
        intro g hg
        refine hdvd g ?_
        rw [List.dropLast_cons_of_ne_nil ht]
        simp [hg]
      have happ := gcm_process_data_append E false ctx f t.flatten hf
      show ((runData E (gcm_encrypt E ctx f true).1 t).1, _) = _
      rw [show gcm_encrypt E ctx f true =
        gcm_process_data E false ctx f from rfl]
      rw [ih (gcm_process_data E false ctx f).1 hsub
        (gcm_process_data_len_lt E false ctx f)]
      have hfl : (f :: t).flatten = f ++ t.flatten := rfl
      rw [hfl]
      exact Prod.ext (happ.1.symm) (by rw [happ.2])

/-! ### Round-trip lemmas -/

theorem zip_xor_invol (p : List Nat) :
    ∀ k : List Nat, p.length ≤ k.length →
      List.zipWith (fun a b => a ^^^ b)
        (List.zipWith (fun a b => a ^^^ b) p k) k = p := by
  induction p with
  | nil => intro k _; rfl
  | cons x t ih =>
    intro k hk
    cases k with
    | nil => simp at hk
    | cons y u =>
      simp only [List.zipWith_cons_cons, List.cons.injEq]
      exact ⟨by rw [Nat.xor_assoc, Nat.xor_self, Nat.xor_zero],
        ih u (by simpa using hk)⟩

theorem gcm_data_loop_out_length (E : List Nat → List Nat)
    (hE : ∀ b, (E b).length = 16) (hs : Bool) (key : List Nat) (n : Nat) :
    ∀ src ctr hash, src.length = n →
      (gcm_data_loop E hs key ctr hash src).2.2.length = src.length := by
  induction n using Nat.strong_induction_on with
  | _ n ih =>
    intro src ctr hash hlen
    by_cases hsrc : src = []
    · subst hsrc
      rw [gcm_data_loop_nil]
    · have hpos : 0 < src.length := List.length_pos.mpr hsrc
      rw [gcm_data_loop_ne E hs key ctr hash src hsrc]
      simp only [List.length_append, List.length_zipWith, List.length_take,
        hE]
      rw [ih (n - 16) (by omega) (src.drop 16) _ _ (by simp [hlen])]
      simp
      try omega

theorem gcm_data_loop_roundtrip (E : List Nat → List Nat)
    (hE : ∀ b, (E b).length = 16) (key : List Nat) (n : Nat) :
    ∀ src ctr hash, src.length = n →
      gcm_data_loop E true key ctr hash
          (gcm_data_loop E false key ctr hash src).2.2 =
        ((gcm_data_loop E false key ctr hash src).1,
         (gcm_data_loop E false key ctr hash src).2.1, src) := by
  induction n using Nat.strong_induction_on with
  | _ n ih =>
    intro src ctr hash hlen
    by_cases hsrc : src = []
    · subst hsrc
      simp [gcm_data_loop_nil]
    · have hpos : 0 < src.length := List.length_pos.mpr hsrc
      set C2 := gcm_count ctr 1 with hC2
      set K := E C2 with hK
      have hks : K.length = 16 := hE C2
      set F := src.take 16 with hF
      have hFlen : F.length = min 16 src.length := by simp [hF]
      set OUT := List.zipWith (fun a b => a ^^^ b) F K with hOUT
      have houtlen : OUT.length = min 16 src.length := by
        simp only [hOUT, List.length_zipWith, hks]
        omega
      have hinvol : List.zipWith (fun a b => a ^^^ b) OUT K = F :=
        zip_xor_invol F K (by omega)
      set H2 := gcm_multiply_key key (gcm_xor_into OUT hash) with hH2
      set RE := gcm_data_loop E false key C2 H2 (src.drop 16) with hRE
      have henc : gcm_data_loop E false key ctr hash src =
          (RE.1, RE.2.1, OUT ++ RE.2.2) := by
        rw [gcm_data_loop_ne E false key ctr hash src hsrc]
        simp only [Bool.false_eq_true, if_false]
      rw [henc]
      by_cases h16 : 16 ≤ src.length
      · have houtl16 : OUT.length = 16 := by omega
        have hne2 : OUT ++ RE.2.2 ≠ [] := by
          intro hh
          have := congrArg List.length hh
          simp [houtl16] at this
        have htake : (OUT ++ RE.2.2).take 16 = OUT := by
          rw [List.take_append_of_le_length (by omega),
            List.take_of_length_le (by omega)]
        have hdrop : (OUT ++ RE.2.2).drop 16 = RE.2.2 := by
          rw [List.drop_append_of_le_length (by omega),
            List.drop_eq_nil_of_le (by omega), List.nil_append]
        rw [gcm_data_loop_ne E true key ctr hash _ hne2]
        simp only [htake, hdrop, if_true, ← hC2, ← hK, hinvol]
        rw [hRE, ih (n - 16) (by omega) (src.drop 16) C2 H2 (by simp [hlen])]
        rw [← hRE]
        simp only [Prod.mk.injEq, true_and]
        rw [hF, List.take_append_drop]
      · have hdm : src.drop 16 = [] := List.drop_eq_nil_of_le (by omega)
        have hREnil : RE = (C2, H2, []) := by
          rw [hRE, hdm, gcm_data_loop_nil]
        have houtlt : OUT.length = src.length := by omega
        have hne3 : OUT ≠ [] := by
          intro hh
          have h0 := congrArg List.length hh
          rw [houtlt, List.length_nil] at h0
          omega
        rw [hREnil]
        simp only [List.append_nil]
        have htake2 : OUT.take 16 = OUT :=
          List.take_of_length_le (by omega)
        have hdrop2 : OUT.drop 16 = [] :=
          List.drop_eq_nil_of_le (by omega)
        rw [gcm_data_loop_ne E true key ctr hash OUT hne3]
        simp only [htake2, hdrop2, if_true, ← hC2, ← hK, hinvol,
          gcm_data_loop_nil, List.append_nil]
        simp only [Prod.mk.injEq, true_and]
        try rw [hF]
        try exact List.take_of_length_le (by omega)
        try rfl

theorem gcm_process_data_roundtrip (E : List Nat → List Nat)
    (hE : ∀ b, (E b).length = 16) (ctx : GcmContext) (P : List Nat) :
    gcm_process_data E true ctx (gcm_process_data E false ctx P).2 =
      ((gcm_process_data E false ctx P).1, P) := by
  cases ctx with
  | mk h0 la ld c0 k0 =>
    have hout := gcm_data_loop_out_length E hE false k0 P.length P c0 h0 rfl
    have hrt := gcm_data_loop_roundtrip E hE k0 P.length P c0 h0 rfl
    simp only [gcm_process_data] at hout hrt ⊢
    rw [hrt, hout]
    try simp

/-! ### Well-formedness of the multiplication pipeline -/

theorem getD_mem_or_default {α : Type} (l : List α) (d : α) (i : Nat) :
    l.getD i d ∈ l ∨ l.getD i d = d := by
  induction l generalizing i with
  | nil => right; rfl
  | cons x t ih =>
    cases i with
    | zero => left; simp
    | succ i =>
      rw [List.getD_cons_succ]
      rcases ih i with h | h
      · left
        exact List.mem_cons_of_mem x h
      · right
        exact h

theorem zip_xor_length (a b : List Nat) :
    (gcm_xor_block a b).length = min a.length b.length := by
  simp [gcm_xor_block]

theorem zip_xor_bounds (a b : List Nat) (ha : ∀ x ∈ a, x < 256)
    (hb : ∀ x ∈ b, x < 256) : ∀ x ∈ gcm_xor_block a b, x < 256 := by
  induction a generalizing b with
  | nil => intro x hx; cases hx
  | cons p t ih =>
    cases b with
    | nil => intro x hx; cases hx
    | cons q u =>
      intro x hx
      simp only [gcm_xor_block, List.zipWith_cons_cons, List.mem_cons] at hx
      rcases hx with hx | hx
      · subst hx
        exact xor_lt_256 p q (ha p (by simp)) (hb q (by simp))
      · exact ih u (fun z hz => ha z (by simp [hz]))
          (fun z hz => hb z (by simp [hz])) x hx

/-- Invariant carried through the `gcm_cache` construction loop. -/
def cacheWF (rm : List (Nat × Nat) × List (List Nat)) : Prop :=
  (∀ p ∈ rm.1, p.1 < 256 ∧ p.2 < 256) ∧ (∀ m ∈ rm.2, wfBlock m)

theorem gcm_cache_step_wf (key : List Nat) (hkey : wfBlock key)
    (rm : List (Nat × Nat) × List (List Nat)) (i : Nat) (h : cacheWF rm) :
    cacheWF (gcm_cache_step key rm i) := by
  obtain ⟨hR, hM⟩ := h
  have hRd : ∀ j, (rm.1.getD j (0, 0)).1 < 256 ∧
      (rm.1.getD j (0, 0)).2 < 256 := by
    intro j
    rcases getD_mem_or_default rm.1 (0, 0) j with hm | hm
    · exact hR _ hm
    · rw [hm]; exact ⟨by omega, by omega⟩
  have hMd : ∀ j, wfBlock (rm.2.getD j zeroBlock) := by
    intro j
    rcases getD_mem_or_default rm.2 zeroBlock j with hm | hm
    · exact hM _ hm
    · rw [hm]
      exact ⟨rfl, by intro x hx; simp [zeroBlock] at hx; omega⟩
  simp only [gcm_cache_step]
  split
  · constructor
    · intro p hp
      rcases List.mem_or_eq_of_mem_set hp with hp | hp
      · exact hR p hp
      · subst hp
        refine ⟨xor_lt_256 _ _ (hRd _).1 (by omega), (hRd _).2⟩
    · intro m hm
      rcases List.mem_or_eq_of_mem_set hm with hm | hm
      · exact hM m hm
      · subst hm
        constructor
        · rw [zip_xor_length, hkey.1, (hMd _).1]
          omega
        · exact zip_xor_bounds _ _ hkey.2 (hMd _).2
  · constructor
    · intro p hp
      rcases List.mem_or_eq_of_mem_set hp with hp | hp
      · exact hR p hp
      · subst hp
        have h1 := (hRd (gcm_reverse i <<< 1)).1
        have h2 := (hRd (gcm_reverse i <<< 1)).2
        constructor
        · show ((rm.1.getD (gcm_reverse i <<< 1) (0, 0)).1 * 256 +
            (rm.1.getD (gcm_reverse i <<< 1) (0, 0)).2) / 2 / 256 < 256
          omega
        · show ((rm.1.getD (gcm_reverse i <<< 1) (0, 0)).1 * 256 +
            (rm.1.getD (gcm_reverse i <<< 1) (0, 0)).2) / 2 % 256 < 256
          omega
    · intro m hm
      rcases List.mem_or_eq_of_mem_set hm with hm | hm
      · exact hM m hm
      · subst hm
        constructor
        · rw [gcm_multiply_x_length, (hMd _).1]
        · exact gcm_multiply_x_bounds _ (hMd _).2

theorem gcm_cache_wf (key : List Nat) (hkey : wfBlock key) :
    cacheWF (gcm_cache key) := by
  unfold gcm_cache
  have base : cacheWF (List.replicate 256 (0, 0),
      List.replicate 256 zeroBlock) := by
    constructor
    · intro p hp
      have := List.eq_of_mem_replicate hp
      subst this
      exact ⟨by omega, by omega⟩
    · intro m hm
      have := List.eq_of_mem_replicate hm
      subst this
      exact ⟨rfl, by intro x hx; simp [zeroBlock] at hx; omega⟩
  have hfold : ∀ (l : List Nat) rm, cacheWF rm →
      cacheWF (l.foldl (gcm_cache_step key) rm) := by
    intro l
    induction l with
    | nil => intro rm h; exact h
    | cons i t ih =>
      intro rm h
      exact ih _ (gcm_cache_step_wf key hkey rm i h)
  exact hfold _ _ base

theorem gcm_multiply_x_8_wf (R : List (Nat × Nat)) (res : List Nat)
    (hR : ∀ p ∈ R, p.1 < 256 ∧ p.2 < 256) (hres : wfBlock res) :
    wfBlock (gcm_multiply_x_8 R res) := by
  obtain ⟨hlen, hb⟩ := hres
  have hRd : (R.getD (res.getLastD 0) (0, 0)).1 < 256 ∧
      (R.getD (res.getLastD 0) (0, 0)).2 < 256 := by
    rcases getD_mem_or_default R (0, 0) (res.getLastD 0) with hm | hm
    · exact hR _ hm
    · rw [hm]; exact ⟨by omega, by omega⟩
  have hdb : ∀ x ∈ res.dropLast, x < 256 :=
    fun x hx => hb x (List.dropLast_subset res hx)
  have hdl : res.dropLast.length = 15 := by
    rw [List.length_dropLast, hlen]
  unfold gcm_multiply_x_8
  cases hc : res.dropLast with
  | nil => rw [hc] at hdl; simp at hdl
  | cons x t =>
    constructor
    · have := congrArg List.length hc
      simp only [hdl] at this
      simp only [xorHead2, List.length_cons]
      simp at this
      omega
    · intro z hz
      simp only [xorHead2, List.mem_cons] at hz
      rcases hz with hz | hz | hz
      · subst hz
        exact xor_lt_256 0 _ (by omega) hRd.1
      · subst hz
        refine xor_lt_256 x _ ?_ hRd.2
        exact hdb x (by rw [hc]; simp)
      · exact hdb z (by rw [hc]; simp [hz])

theorem gcm_multiply_key_eq (key poly : List Nat) (b15 : Nat)
    (rest : List Nat) (h : poly.reverse = b15 :: rest) :
    gcm_multiply_key key poly =
      rest.foldl
        (fun res b =>
          gcm_xor_block ((gcm_cache key).2.getD b zeroBlock)
            (gcm_multiply_x_8 (gcm_cache key).1 res))
        ((gcm_cache key).2.getD b15 zeroBlock) := by
  unfold gcm_multiply_key
  rw [h]

theorem multiply_key_foldl_wf (key : List Nat)
    (hMd : ∀ j, wfBlock ((gcm_cache key).2.getD j zeroBlock))
    (htab : cacheWF (gcm_cache key)) :
    ∀ (l : List Nat) (res : List Nat), wfBlock res →
      wfBlock (l.foldl
        (fun res b =>
          gcm_xor_block ((gcm_cache key).2.getD b zeroBlock)
            (gcm_multiply_x_8 (gcm_cache key).1 res)) res) := by
  intro l
  induction l with
  | nil => intro res h; exact h
  | cons b t ih =>
    intro res h
    rw [List.foldl_cons]
    refine ih _ ?_
    have h8 := gcm_multiply_x_8_wf (gcm_cache key).1 res htab.1 h
    constructor
    · rw [zip_xor_length, (hMd b).1, h8.1]
      omega
    · exact zip_xor_bounds _ _ (hMd b).2 h8.2

theorem gcm_cache_mult_getD_wf (key : List Nat) (hkey : wfBlock key) :
    ∀ j, wfBlock ((gcm_cache key).2.getD j zeroBlock) := by
  intro j
  rcases getD_mem_or_default (gcm_cache key).2 zeroBlock j with hm | hm
  · exact (gcm_cache_wf key hkey).2 _ hm
  · rw [hm]
    exact ⟨rfl, by intro x hx; simp [zeroBlock] at hx; omega⟩

theorem gcm_multiply_key_wf (key poly : List Nat) (hkey : wfBlock key)
    (hpoly : wfBlock poly) : wfBlock (gcm_multiply_key key poly) := by
  have htab := gcm_cache_wf key hkey
  have hMd := gcm_cache_mult_getD_wf key hkey
  cases hrev : poly.reverse with
  | nil =>
    have h0 := congrArg List.length hrev
    rw [List.length_reverse, hpoly.1] at h0
    simp at h0
  | cons b15 rest =>
    rw [gcm_multiply_key_eq key poly b15 rest hrev]
    exact multiply_key_foldl_wf key hMd htab rest _ (hMd b15)

/-! ### GHASH specification correspondence -/

theorem ghash_go_nil (key : List Nat) (fuel : Nat) (Y : List Nat) :
    ghash_go key fuel Y [] = Y := by
  cases fuel <;> rfl

theorem ghash_go_irrel (key : List Nat) :
    ∀ f1 f2 msg Y, msg.length ≤ f1 → msg.length ≤ f2 →
      ghash_go key f1 Y msg = ghash_go key f2 Y msg := by
  intro f1
  induction f1 with
  | zero =>
    intro f2 msg Y h1 _
    have : msg = [] := by
      cases msg with
      | nil => rfl
      | cons x t => simp at h1
    subst this
    rw [ghash_go_nil, ghash_go_nil]
  | succ f1 ih =>
    intro f2 msg Y h1 h2
    by_cases hd : msg = []
    · subst hd
      rw [ghash_go_nil, ghash_go_nil]
    · have hpos : 0 < msg.length := List.length_pos.mpr hd
      cases f2 with
      | zero => omega
      | succ f2 =>
        simp only [ghash_go, if_neg hd]
        exact ih f2 (msg.drop 16) _ (by simp; omega) (by simp; omega)

theorem ghash_loop_nil (key Y : List Nat) : ghash_loop key Y [] = Y := rfl

theorem ghash_loop_ne (key Y msg : List Nat) (h : msg ≠ []) :
    ghash_loop key Y msg =
      ghash_loop key
        (gcm_multiply_key key
          (gcm_xor_block
            (msg.take 16 ++ List.replicate (16 - (msg.take 16).length) 0) Y))
        (msg.drop 16) := by
  have hpos : 0 < msg.length := List.length_pos.mpr h
  unfold ghash_loop
  obtain ⟨n, hn⟩ : ∃ n, msg.length = n + 1 := ⟨msg.length - 1, by omega⟩
  rw [hn]
  simp only [ghash_go, if_neg h]
  exact ghash_go_irrel key n (msg.drop 16).length (msg.drop 16) _
    (by simp; omega) (by omega)

theorem ghash_loop_append (key : List Nat) (n : Nat) :
    ∀ a : List Nat, a.length = n → 16 ∣ n → ∀ Y b,
      ghash_loop key Y (a ++ b) =
        ghash_loop key (ghash_loop key Y a) b := by
  induction n using Nat.strong_induction_on with
  | _ n ih =>
    intro a hlen hdvd Y b
    by_cases hnil : a = []
    · subst hnil
      rw [List.nil_append, ghash_loop_nil]
    · have hpos : 0 < a.length := List.length_pos.mpr hnil
      have hge : 16 ≤ n := by
        rcases hdvd with ⟨c, hc⟩
        omega
      rw [ghash_loop_ne key Y (a ++ b) (by simp [hnil]),
        ghash_loop_ne key Y a hnil,
        List.take_append_of_le_length (by omega),
        List.drop_append_of_le_length (by omega)]
      exact ih (n - 16) (by omega) (a.drop 16) (by simp [hlen])
        (Nat.dvd_sub' hdvd (by norm_num)) _ b

theorem gcm_xor_into_length (src : List Nat) :
    ∀ dst : List Nat, (gcm_xor_into src dst).length = dst.length := by
  induction src with
  | nil => intro dst; rfl
  | cons x t ih =>
    intro dst
    cases dst with
    | nil => rfl
    | cons y u => simp [gcm_xor_into, ih u]

theorem gcm_xor_into_bounds (src : List Nat) :
    ∀ dst : List Nat, (∀ x ∈ src, x < 256) → (∀ x ∈ dst, x < 256) →
      ∀ x ∈ gcm_xor_into src dst, x < 256 := by
  induction src with
  | nil => intro dst _ hd; exact hd
  | cons p t ih =>
    intro dst hs hd
    cases dst with
    | nil => intro x hx; cases hx
    | cons q u =>
      intro x hx
      simp only [gcm_xor_into, List.mem_cons] at hx
      rcases hx with hx | hx
      · subst hx
        exact xor_lt_256 p q (hs p (by simp)) (hd q (by simp))
      · exact ih u (fun z hz => hs z (by simp [hz]))
          (fun z hz => hd z (by simp [hz])) x hx

theorem zip_zero_left (l : List Nat) :
    ∀ n, l.length ≤ n → gcm_xor_block (List.replicate n 0) l = l := by
  induction l with
  | nil =>
    intro n _
    simp [gcm_xor_block]
  | cons x t ih =>
    intro n hn
    cases n with
    | zero => simp at hn
    | succ n =>
      simp only [List.replicate_succ, gcm_xor_block, List.zipWith_cons_cons,
        Nat.zero_xor]
      rw [show List.zipWith (fun a b => a ^^^ b) (List.replicate n 0) t =
        gcm_xor_block (List.replicate n 0) t from rfl, ih n (by simpa using hn)]

theorem gcm_xor_into_eq_zip_pad (src : List Nat) :
    ∀ (Y : List Nat) (k : Nat), src.length + k = Y.length →
      gcm_xor_into src Y =
        gcm_xor_block (src ++ List.replicate k 0) Y := by
  induction src with
  | nil =>
    intro Y k hk
    simp only [List.length_nil, Nat.zero_add] at hk
    simp only [gcm_xor_into, List.nil_append]
    rw [zip_zero_left Y k (by omega)]
  | cons x t ih =>
    intro Y k hk
    cases Y with
    | nil => simp at hk
    | cons y u =>
      show (x ^^^ y) :: gcm_xor_into t u =
        (x ^^^ y) :: gcm_xor_block (t ++ List.replicate k 0) u
      exact congrArg (List.cons (x ^^^ y))
        (ih u k (by simp at hk; omega))

theorem zip_xor_comm (a b : List Nat) :
    gcm_xor_block a b = gcm_xor_block b a :=
  List.zipWith_comm_of_comm _ (fun x y => Nat.xor_comm x y) a b

theorem wf_zeroBlock : wfBlock zeroBlock := by
  constructor
  · rfl
  · intro x hx
    simp [zeroBlock] at hx
    omega

theorem hash_loop_eq_ghash_pad (key : List Nat) (hkey : wfBlock key)
    (n : Nat) :
    ∀ data Y, data.length = n → wfBlock Y → (∀ b ∈ data, b < 256) →
      gcm_hash_loop key Y data =
        ghash_loop key Y
          (data ++ List.replicate ((16 - data.length % 16) % 16) 0) := by
  induction n using Nat.strong_induction_on with
  | _ n ih =>
    intro data Y hlen hY hdata
    by_cases hnil : data = []
    · subst hnil
      simp [gcm_hash_loop_nil, ghash_loop_nil]
    · have hpos : 0 < data.length := List.length_pos.mpr hnil
      by_cases h16 : 16 ≤ data.length
      · have hpadrw : (16 - data.length % 16) % 16 =
            (16 - (data.drop 16).length % 16) % 16 := by
          simp only [List.length_drop]
          omega
        have htk : (data.take 16).length = 16 := by
          simp
          omega
        have hmsgne : data ++ List.replicate
            ((16 - data.length % 16) % 16) 0 ≠ [] := by
          simp [hnil]
        have hxor : gcm_xor_into (data.take 16) Y =
            gcm_xor_block (data.take 16) Y := by
          rw [gcm_xor_into_eq_zip_pad (data.take 16) Y 0
            (by simp [htk, hY.1])]
          simp
        have hwfmk : wfBlock (gcm_multiply_key key
            (gcm_xor_into (data.take 16) Y)) := by
          refine gcm_multiply_key_wf key _ hkey ⟨?_, ?_⟩
          · rw [gcm_xor_into_length, hY.1]
          · exact gcm_xor_into_bounds (data.take 16) Y
              (fun z hz => hdata z (List.take_subset 16 data hz)) hY.2
        rw [gcm_hash_loop_ne key Y data hnil,
          ghash_loop_ne key Y _ hmsgne,
          List.take_append_of_le_length (by omega),
          List.drop_append_of_le_length (by omega), htk]
        simp only [Nat.sub_self, List.replicate_zero, List.append_nil]
        rw [← hxor, hpadrw]
        exact ih (n - 16) (by omega) (data.drop 16) _ (by simp [hlen])
          hwfmk (fun z hz => hdata z (List.drop_subset 16 data hz))
      · have hlt : data.length < 16 := by omega
        have hk : (16 - data.length % 16) % 16 = 16 - data.length := by
          omega
        have htk2 : data.take 16 = data :=
          List.take_of_length_le (by omega)
        have hdp : data.drop 16 = [] :=
          List.drop_eq_nil_of_le (by omega)
        have hmsglen : (data ++
            List.replicate (16 - data.length) 0).length = 16 := by
          simp
          omega
        have hmsgne2 : data ++ List.replicate (16 - data.length) 0 ≠ [] := by
          simp [hnil]
        rw [gcm_hash_loop_ne key Y data hnil, htk2, hdp,
          gcm_hash_loop_nil, hk,
          ghash_loop_ne key Y _ hmsgne2,
          List.take_of_length_le (by omega), hmsglen]
        simp only [Nat.sub_self, List.replicate_zero, List.append_nil]
        rw [List.drop_eq_nil_of_le (by omega), ghash_loop_nil]
        rw [gcm_xor_into_eq_zip_pad data Y (16 - data.length)
          (by rw [hY.1]; omega)]

/-! ### Counter arithmetic -/

theorem gcm_count_split (ctr : List Nat) (delta : Nat)
    (h : ctr.length = 16) :
    (gcm_count ctr delta).take 12 = ctr.take 12 ∧
      beVal ((gcm_count ctr delta).drop 12) =
        (beVal (ctr.drop 12) + delta) % 2 ^ 32 := by
  rw [gcm_count_def]
  constructor
  · rw [List.take_append_eq_append_take, List.take_of_length_le
      (by rw [length_take_twelve ctr h]),
      length_take_twelve ctr h]
    simp
  · rw [List.drop_left' (length_take_twelve ctr h), beVal_be32bytes]
    exact Nat.mod_lt _ (by norm_num)

theorem be32bytes_bounds (v : Nat) : ∀ x ∈ be32bytes v, x < 256 := by
  intro x hx
  simp only [be32bytes, List.mem_cons] at hx
  rcases hx with h | h | h | h | h
  all_goals first
  | (subst h; omega)
  | cases h

theorem be64bytes_bounds (v : Nat) : ∀ x ∈ be64bytes v, x < 256 := by
  intro x hx
  simp only [be64bytes, List.mem_cons] at hx
  rcases hx with h | h | h | h | h | h | h | h | h
  all_goals first
  | (subst h; omega)
  | cases h

theorem gcm_count_wf (ctr : List Nat) (d : Nat) (h : wfBlock ctr) :
    wfBlock (gcm_count ctr d) := by
  constructor
  · rw [gcm_count_def, List.length_append, length_be32bytes,
      length_take_twelve ctr h.1]
  · intro x hx
    rw [gcm_count_def] at hx
    rcases List.mem_append.mp hx with hx | hx
    · exact h.2 x (List.take_subset 12 ctr hx)
    · exact be32bytes_bounds _ x hx

theorem list4_cases (l : List Nat) (h : l.length = 4) :
    ∃ a b c d, l = [a, b, c, d] := by
  obtain ⟨a, t, rfl⟩ : ∃ x xs, l = x :: xs := by
    cases l with
    | nil => simp at h
    | cons x xs => exact ⟨x, xs, rfl⟩
  obtain ⟨b, u, rfl⟩ : ∃ x xs, t = x :: xs := by
    cases t with
    | nil => simp at h
    | cons x xs => exact ⟨x, xs, rfl⟩
  obtain ⟨c, w, rfl⟩ : ∃ x xs, u = x :: xs := by
    cases u with
    | nil => simp at h
    | cons x xs => exact ⟨x, xs, rfl⟩
  obtain ⟨d, z, rfl⟩ : ∃ x xs, w = x :: xs := by
    cases w with
    | nil => simp at h
    | cons x xs => exact ⟨x, xs, rfl⟩
  have hz : z = [] := by
    cases z with
    | nil => rfl
    | cons x xs => simp at h
  exact ⟨a, b, c, d, by rw [hz]⟩

theorem beVal_four_lt (l : List Nat) (hlen : l.length = 4)
    (hb : ∀ x ∈ l, x < 256) : beVal l < 2 ^ 32 := by
  obtain ⟨a, b, c, d, rfl⟩ := list4_cases l hlen
  have ha : a < 256 := hb a (by simp)
  have hbb : b < 256 := hb b (by simp)
  have hc : c < 256 := hb c (by simp)
  have hd : d < 256 := hb d (by simp)
  simp only [beVal, List.foldl]
  omega

theorem be32bytes_beVal_four (l : List Nat) (hlen : l.length = 4)
    (hb : ∀ x ∈ l, x < 256) : be32bytes (beVal l) = l := by
  obtain ⟨a, b, c, d, rfl⟩ := list4_cases l hlen
  have ha : a < 256 := hb a (by simp)
  have hbb : b < 256 := hb b (by simp)
  have hc : c < 256 := hb c (by simp)
  have hd : d < 256 := hb d (by simp)
  simp only [beVal, List.foldl, be32bytes, List.cons.injEq, and_true]
  refine ⟨?_, ?_, ?_, ?_⟩ <;> omega

theorem gcm_count_comp (ctr : List Nat) (h : ctr.length = 16) (a b : Nat) :
    gcm_count (gcm_count ctr a) b = gcm_count ctr (a + b) := by
  have h2 : (gcm_count ctr a).length = 16 := by
    rw [gcm_count_def, List.length_append, length_be32bytes,
      length_take_twelve ctr h]
  obtain ⟨ht, hv⟩ := gcm_count_split ctr a h
  rw [gcm_count_def (gcm_count ctr a) b, ht, hv, gcm_count_def ctr (a + b)]
  congr 1
  congr 1
  omega

theorem gcm_count_mod_zero (ctr : List Nat) (hwf : wfBlock ctr) (d : Nat)
    (hd : d % 2 ^ 32 = 0) : gcm_count ctr d = ctr := by
  have hd4 : (ctr.drop 12).length = 4 := by
    rw [List.length_drop, hwf.1]
  have hb4 : ∀ x ∈ ctr.drop 12, x < 256 :=
    fun x hx => hwf.2 x (List.drop_subset 12 ctr hx)
  have hlt := beVal_four_lt (ctr.drop 12) hd4 hb4
  rw [gcm_count_def]
  have hmod : (beVal (ctr.drop 12) + d) % 2 ^ 32 = beVal (ctr.drop 12) := by
    omega
  rw [hmod, be32bytes_beVal_four (ctr.drop 12) hd4 hb4,
    List.take_append_drop]

theorem gcm_data_loop_ctr (E : List Nat → List Nat) (hs : Bool)
    (key : List Nat) (n : Nat) :
    ∀ src ctr hash, src.length = n → wfBlock ctr →
      (gcm_data_loop E hs key ctr hash src).1 =
        gcm_count ctr ((src.length + 15) / 16) := by
  induction n using Nat.strong_induction_on with
  | _ n ih =>
    intro src ctr hash hlen hwf
    by_cases hsrc : src = []
    · subst hsrc
      rw [gcm_data_loop_nil]
      exact (gcm_count_mod_zero ctr hwf 0 (by norm_num)).symm
    · have hpos : 0 < src.length := List.length_pos.mpr hsrc
      rw [gcm_data_loop_ne E hs key ctr hash src hsrc]
      simp only []
      rw [ih (n - 16) (by omega) (src.drop 16) _ _ (by simp [hlen])
        (gcm_count_wf ctr 1 hwf)]
      rw [gcm_count_comp ctr hwf.1]
      congr 1
      simp only [List.length_drop]
      omega

theorem gcm_hash_loop_wf (key : List Nat) (hkey : wfBlock key) (n : Nat) :
    ∀ data Y, data.length = n → wfBlock Y → (∀ b ∈ data, b < 256) →
      wfBlock (gcm_hash_loop key Y data) := by
  induction n using Nat.strong_induction_on with
  | _ n ih =>
    intro data Y hlen hY hdata
    by_cases hnil : data = []
    · subst hnil
      rw [gcm_hash_loop_nil]
      exact hY
    · have hpos : 0 < data.length := List.length_pos.mpr hnil
      rw [gcm_hash_loop_ne key Y data hnil]
      refine ih (n - 16) (by omega) (data.drop 16) _ (by simp [hlen]) ?_
        (fun z hz => hdata z (List.drop_subset 16 data hz))
      refine gcm_multiply_key_wf key _ hkey ⟨?_, ?_⟩
      · rw [gcm_xor_into_length, hY.1]
      · exact gcm_xor_into_bounds (data.take 16) Y
          (fun z hz => hdata z (List.take_subset 16 data hz)) hY.2

theorem gcm_setiv_state (ctx : GcmContext) (iv : List Nat)
    (hkey : wfBlock ctx.key) (hiv : ∀ b ∈ iv, b < 256) :
    wfBlock (gcm_setiv ctx iv).ctr ∧
      (gcm_setiv ctx iv).len_data = 0 ∧
      (gcm_setiv ctx iv).key = ctx.key := by
  cases ctx with
  | mk h0 la ld c0 k0 =>
    have hkey2 : wfBlock k0 := hkey
    by_cases h12 : iv.length = 12
    · simp only [gcm_setiv, if_pos h12]
      refine ⟨⟨?_, ?_⟩, by trivial, by trivial⟩
      · simp [h12, be32bytes]
      · intro x hx
        rcases List.mem_append.mp hx with hx | hx
        · exact hiv x hx
        · rcases List.mem_append.mp (List.drop_subset 12 _ hx) with hh | hh
          · have := List.eq_of_mem_replicate hh
            omega
          · exact be32bytes_bounds 1 x hh
    · have hres : gcm_setiv (GcmContext.mk h0 la ld c0 k0) iv =
          GcmContext.mk zeroBlock 0 0
            (gcm_multiply_key k0
              (gcm_xor_block (gcm_hash_loop k0 zeroBlock iv)
                (be64bytes 0 ++
                  be64bytes ((0 + iv.length * 8) % 2 ^ 64)))) k0 := by
        simp only [gcm_setiv, if_neg h12, gcm_process_hashonly, gcm_hash,
          if_true]
        try rfl
      rw [hres]
      refine ⟨?_, rfl, rfl⟩
      have hloop := gcm_hash_loop_wf k0 hkey2 iv.length iv zeroBlock rfl
        wf_zeroBlock hiv
      refine gcm_multiply_key_wf k0 _ hkey2 ⟨?_, ?_⟩
      · rw [zip_xor_length, hloop.1]
        simp [be64bytes]
      · refine zip_xor_bounds _ _ hloop.2 ?_
        intro x hx
        rcases List.mem_append.mp hx with hx | hx
        · exact be64bytes_bounds _ x hx
        · exact be64bytes_bounds _ x hx

theorem runData_state (E : List Nat → List Nat) (datas : List (List Nat)) :
    ∀ ctx : GcmContext, wfBlock ctx.ctr → ctx.len_data < 2 ^ 64 →
      (∀ f ∈ datas.dropLast, 16 ∣ f.length) →
      (runData E ctx datas).1.ctr =
        gcm_count ctx.ctr (((datas.map List.length).sum + 15) / 16) ∧
      (runData E ctx datas).1.len_data =
        (ctx.len_data + 8 * (datas.map List.length).sum) % 2 ^ 64 := by
  induction datas with
  | nil =>
    intro ctx hwf hlt _
    have hnil : (runData E ctx []).1 = ctx := rfl
    rw [hnil]
    constructor
    · exact (gcm_count_mod_zero ctx.ctr hwf 0 (by norm_num)).symm
    · simp
      omega
  | cons f t ih =>
    intro ctx hwf hlt hdvd
    have hctr1 : (gcm_process_data E false ctx f).1.ctr =
        gcm_count ctx.ctr ((f.length + 15) / 16) := by
      simp only [gcm_process_data]
      exact gcm_data_loop_ctr E false ctx.key f.length f ctx.ctr ctx.hash
        rfl hwf
    have hlen1 : (gcm_process_data E false ctx f).1.len_data =
        (ctx.len_data + f.length * 8) % 2 ^ 64 := rfl
    have hwf1 : wfBlock (gcm_process_data E false ctx f).1.ctr := by
      rw [hctr1]
      exact gcm_count_wf _ _ hwf
    have hlt1 : (gcm_process_data E false ctx f).1.len_data < 2 ^ 64 := by
      rw [hlen1]
      exact Nat.mod_lt _ (by norm_num)
    by_cases ht : t = []
    · subst ht
      show (runData E (gcm_encrypt E ctx f true).1 []).1.ctr = _ ∧
        (runData E (gcm_encrypt E ctx f true).1 []).1.len_data = _
      rw [show gcm_encrypt E ctx f true =
        gcm_process_data E false ctx f from rfl]
      constructor
      · show (gcm_process_data E false ctx f).1.ctr = _
        rw [hctr1]
        congr 1
        try simp
      · show (gcm_process_data E false ctx f).1.len_data = _
        rw [hlen1]
        simp only [List.map_cons, List.map_nil, List.sum_cons,
          List.sum_nil]
        try omega
    · have hf : 16 ∣ f.length := by
        refine hdvd f ?_
        rw [List.dropLast_cons_of_ne_nil ht]
        simp
      have hsub : ∀ g ∈ t.dropLast, 16 ∣ g.length := by
        intro g hg
        refine hdvd g ?_
        rw [List.dropLast_cons_of_ne_nil ht]
        simp [hg]
      have hrec := ih (gcm_process_data E false ctx f).1 hwf1 hlt1 hsub
      show (runData E (gcm_encrypt E ctx f true).1 t).1.ctr = _ ∧
        (runData E (gcm_encrypt E ctx f true).1 t).1.len_data = _
      rw [show gcm_encrypt E ctx f true =
        gcm_process_data E false ctx f from rfl]
      constructor
      · rw [hrec.1, hctr1, gcm_count_comp ctx.ctr hwf.1]
        congr 1
        rcases hf with ⟨c, hc⟩
        simp only [List.map_cons, List.sum_cons]
        omega
      · rw [hrec.2, hlen1]
        simp only [List.map_cons, List.sum_cons]
        omega

/-! ### Claim theorems -/

/-- C4: for an IV whose length is not twelve bytes, `gcm_setiv` sets the
counter block to GHASH(H, IV ‖ 0-pad ‖ 0⁶⁴ ‖ len64(IV bits)) — including
the 32-bit counter field, which is whatever GHASH yielded rather than
being reset to 1 — and zeroes the hash and both length counters. -/
theorem gcm_setiv_hash_path (ctx : GcmContext) (iv : List Nat)
    (hlen : iv.length ≠ 12) (hkey : wfBlock ctx.key)
    (hiv : ∀ b ∈ iv, b < 256) :
    (gcm_setiv ctx iv).ctr = ghash_j0_spec ctx.key iv ∧
      (gcm_setiv ctx iv).hash = zeroBlock ∧
      (gcm_setiv ctx iv).len_add = 0 ∧
      (gcm_setiv ctx iv).len_data = 0 := by
  cases ctx with
  | mk h0 la ld c0 k0 =>
    have hkey2 : wfBlock k0 := hkey
    have hres : gcm_setiv (GcmContext.mk h0 la ld c0 k0) iv =
        GcmContext.mk zeroBlock 0 0
          (gcm_multiply_key k0
            (gcm_xor_block (gcm_hash_loop k0 zeroBlock iv)
              (be64bytes 0 ++
                be64bytes ((0 + iv.length * 8) % 2 ^ 64)))) k0 := by
      simp only [gcm_setiv, if_neg hlen, gcm_process_hashonly, gcm_hash,
        if_true]
      try rfl
    rw [hres]
    refine ⟨?_, rfl, rfl, rfl⟩
    show gcm_multiply_key k0
        (gcm_xor_block (gcm_hash_loop k0 zeroBlock iv)
          (be64bytes 0 ++ be64bytes ((0 + iv.length * 8) % 2 ^ 64))) =
      ghash_j0_spec k0 iv
    unfold ghash_j0_spec ghash_spec
    rw [List.append_assoc (iv ++ List.replicate ((16 - iv.length % 16) % 16) 0)
      (List.replicate 8 0) (be64bytes (iv.length * 8 % 2 ^ 64))]
    rw [ghash_loop_append k0
      (iv ++ List.replicate ((16 - iv.length % 16) % 16) 0).length
      (iv ++ List.replicate ((16 - iv.length % 16) % 16) 0) rfl
      (by simp; omega) zeroBlock _]
    rw [← hash_loop_eq_ghash_pad k0 hkey2 iv.length iv zeroBlock rfl
      wf_zeroBlock hiv]
    have hlen16 : (List.replicate 8 0 ++
        be64bytes (iv.length * 8 % 2 ^ 64)).length = 16 := by
      simp [be64bytes]
    rw [ghash_loop_ne k0 _ _ (by simp),
      List.take_of_length_le (by omega), hlen16]
    simp only [Nat.sub_self, List.replicate_zero, List.append_nil]
    rw [List.drop_eq_nil_of_le (by omega), ghash_loop_nil]
    rw [zip_xor_comm]
    rw [show (List.replicate 8 0 : List Nat) = be64bytes 0 from by decide]
    rw [Nat.zero_add]

/-- C4 witness at a concrete twenty-byte IV. -/
theorem gcm_setiv_hash_path_witness :
    (List.replicate 20 1 : List Nat).length ≠ 12 ∧
      wfBlock (⟨zeroBlock, 0, 0, List.replicate 12 0 ++ be32bytes 1,
        List.replicate 16 0⟩ : GcmContext).key ∧
      (∀ b ∈ (List.replicate 20 1 : List Nat), b < 256) ∧
      ((gcm_setiv ⟨zeroBlock, 0, 0, List.replicate 12 0 ++ be32bytes 1,
          List.replicate 16 0⟩ (List.replicate 20 1)).ctr =
        ghash_j0_spec (⟨zeroBlock, 0, 0,
          List.replicate 12 0 ++ be32bytes 1,
          List.replicate 16 0⟩ : GcmContext).key (List.replicate 20 1) ∧
      (gcm_setiv ⟨zeroBlock, 0, 0, List.replicate 12 0 ++ be32bytes 1,
          List.replicate 16 0⟩ (List.replicate 20 1)).hash = zeroBlock ∧
      (gcm_setiv ⟨zeroBlock, 0, 0, List.replicate 12 0 ++ be32bytes 1,
          List.replicate 16 0⟩ (List.replicate 20 1)).len_add = 0 ∧
      (gcm_setiv ⟨zeroBlock, 0, 0, List.replicate 12 0 ++ be32bytes 1,
          List.replicate 16 0⟩ (List.replicate 20 1)).len_data = 0) :=
  ⟨by decide, by decide, by decide,
   gcm_setiv_hash_path
     ⟨zeroBlock, 0, 0, List.replicate 12 0 ++ be32bytes 1,
       List.replicate 16 0⟩
     (List.replicate 20 1) (by decide) (by decide) (by decide)⟩

/-- C1: after `gcm_setkey`, `gcm_setiv` and any well-formed sequence of
AAD and data calls (data fragments block-aligned except the last),
`gcm_tag` writes the GHASH
value finalized with the big-endian lengths block XORed with the
encryption of J₀: the offset `(-len.data)/128` truncated to 32 bits
rewinds the current counter block exactly to the counter block that
`gcm_setiv` produced. -/
theorem gcm_tag_encrypts_initial_counter (E : List Nat → List Nat)
    (hEwf : ∀ b, wfBlock (E b)) (rc : Int) (ctxK : GcmContext)
    (hk : gcm_setkey E rc = Except.ok ctxK) (iv : List Nat)
    (hiv : ∀ b ∈ iv, b < 256) (aads datas : List (List Nat))
    (hfr : ∀ f ∈ datas.dropLast, 16 ∣ f.length) :
    (gcm_tag E (runData E (runAAD E (gcm_setiv ctxK iv) aads) datas).1).2 =
      gcm_xor_block (E (gcm_setiv ctxK iv).ctr)
        (gcm_hash
          (runData E (runAAD E (gcm_setiv ctxK iv) aads) datas).1) := by
  have hkwf : wfBlock ctxK.key := by
    have hkey : ctxK.key = E zeroBlock := by
      by_cases hrc : rc = 0
      · subst hrc
        rw [gcm_setkey, if_neg (by simp)] at hk
        cases hk
        rfl
      · rw [gcm_setkey, if_pos hrc] at hk
        cases hk
    rw [hkey]
    exact hEwf zeroBlock
  obtain ⟨hJ0wf, hld0, -⟩ := gcm_setiv_state ctxK iv hkwf hiv
  have hframe := runAAD_frame E aads (gcm_setiv ctxK iv)
  have hwfA : wfBlock (runAAD E (gcm_setiv ctxK iv) aads).ctr := by
    rw [hframe.2.1]
    exact hJ0wf
  have hldA : (runAAD E (gcm_setiv ctxK iv) aads).len_data = 0 := by
    rw [hframe.1, hld0]
  have hstate := runData_state E datas (runAAD E (gcm_setiv ctxK iv) aads)
    hwfA (by rw [hldA]; norm_num) hfr
  have hctrF :
      (runData E (runAAD E (gcm_setiv ctxK iv) aads) datas).1.ctr =
        gcm_count (gcm_setiv ctxK iv).ctr
          (((datas.map List.length).sum + 15) / 16) := by
    rw [hstate.1, hframe.2.1]
  have hlenF :
      (runData E (runAAD E (gcm_setiv ctxK iv) aads) datas).1.len_data =
        8 * (datas.map List.length).sum % 2 ^ 64 := by
    rw [hstate.2, hldA, Nat.zero_add]
  have hrec : gcm_count
      (runData E (runAAD E (gcm_setiv ctxK iv) aads) datas).1.ctr
      ((2 ^ 64 -
        (runData E (runAAD E (gcm_setiv ctxK iv) aads)
          datas).1.len_data % 2 ^ 64) % 2 ^ 64 / 128 % 2 ^ 32) =
      (gcm_setiv ctxK iv).ctr := by
    rw [hctrF, hlenF, gcm_count_comp _ hJ0wf.1]
    refine gcm_count_mod_zero _ hJ0wf _ ?_
    omega
  show gcm_xor_block
      (E (gcm_count
        (runData E (runAAD E (gcm_setiv ctxK iv) aads) datas).1.ctr
        ((2 ^ 64 -
          (runData E (runAAD E (gcm_setiv ctxK iv) aads)
            datas).1.len_data % 2 ^ 64) % 2 ^ 64 / 128 % 2 ^ 32)))
      (gcm_hash (runData E (runAAD E (gcm_setiv ctxK iv) aads) datas).1) =
    _
  rw [hrec]

/-- C1 witness at a concrete cipher, key, IV, AAD and fragmented data. -/
theorem gcm_tag_encrypts_initial_counter_witness :
    (∀ b : List Nat,
      wfBlock ((fun _ => List.replicate 16 0 : List Nat → List Nat) b)) ∧
    gcm_setkey (fun _ => List.replicate 16 0) 0 =
      Except.ok ⟨zeroBlock, 0, 0, List.replicate 12 0 ++ be32bytes 1,
        List.replicate 16 0⟩ ∧
    (∀ b ∈ (List.replicate 12 0 : List Nat), b < 256) ∧
    (∀ f ∈ ([List.replicate 16 2, List.replicate 5 3] :
        List (List Nat)).dropLast, 16 ∣ f.length) ∧
    (gcm_tag (fun _ => List.replicate 16 0)
        (runData (fun _ => List.replicate 16 0)
          (runAAD (fun _ => List.replicate 16 0)
            (gcm_setiv ⟨zeroBlock, 0, 0,
              List.replicate 12 0 ++ be32bytes 1, List.replicate 16 0⟩
              (List.replicate 12 0))
            [[9]])
          [List.replicate 16 2, List.replicate 5 3]).1).2 =
      gcm_xor_block
        ((fun _ => List.replicate 16 0 : List Nat → List Nat)
          (gcm_setiv ⟨zeroBlock, 0, 0,
            List.replicate 12 0 ++ be32bytes 1, List.replicate 16 0⟩
            (List.replicate 12 0)).ctr)
        (gcm_hash
          (runData (fun _ => List.replicate 16 0)
            (runAAD (fun _ => List.replicate 16 0)
              (gcm_setiv ⟨zeroBlock, 0, 0,
                List.replicate 12 0 ++ be32bytes 1, List.replicate 16 0⟩
                (List.replicate 12 0))
              [[9]])
            [List.replicate 16 2, List.replicate 5 3]).1) :=
  ⟨fun _ => (by decide : wfBlock (List.replicate 16 0)), rfl, by decide,
   by decide,
   gcm_tag_encrypts_initial_counter (fun _ => List.replicate 16 0)
     (fun _ => (by decide : wfBlock (List.replicate 16 0))) 0
     ⟨zeroBlock, 0, 0, List.replicate 12 0 ++ be32bytes 1,
       List.replicate 16 0⟩
     rfl (List.replicate 12 0) (by decide) [[9]]
     [List.replicate 16 2, List.replicate 5 3] (by decide)⟩

/-- C2: decrypting, after the same key, IV and AAD calls, the ciphertext
produced by encrypting a plaintext P yields P again with the identical
final context, so the tags computed by `gcm_tag` in the two sessions
agree. -/
theorem encrypt_then_decrypt_roundtrip (E : List Nat → List Nat)
    (hE : ∀ b, (E b).length = 16) (rc : Int) (ctxK : GcmContext)
    (hk : gcm_setkey E rc = Except.ok ctxK) (iv : List Nat)
    (aads : List (List Nat)) (P : List Nat) :
    gcm_decrypt E (runAAD E (gcm_setiv ctxK iv) aads)
        (gcm_encrypt E (runAAD E (gcm_setiv ctxK iv) aads) P true).2 true =
      ((gcm_encrypt E (runAAD E (gcm_setiv ctxK iv) aads) P true).1, P) ∧
    (gcm_tag E (gcm_decrypt E (runAAD E (gcm_setiv ctxK iv) aads)
        (gcm_encrypt E (runAAD E (gcm_setiv ctxK iv) aads) P true).2
        true).1).2 =
      (gcm_tag E (gcm_encrypt E (runAAD E (gcm_setiv ctxK iv) aads)
        P true).1).2 := by
  have h := gcm_process_data_roundtrip E hE
    (runAAD E (gcm_setiv ctxK iv) aads) P
  exact ⟨h, congrArg (fun c => (gcm_tag E c.1).2) h⟩

/-- C2 witness at a concrete cipher, key, IV, AAD and plaintext. -/
theorem encrypt_then_decrypt_roundtrip_witness :
    (∀ b : List Nat,
      ((fun _ => List.replicate 16 0 : List Nat → List Nat) b).length =
        16) ∧
    gcm_setkey (fun _ => List.replicate 16 0) 0 =
      Except.ok ⟨zeroBlock, 0, 0, List.replicate 12 0 ++ be32bytes 1,
        List.replicate 16 0⟩ ∧
    (gcm_decrypt (fun _ => List.replicate 16 0)
        (runAAD (fun _ => List.replicate 16 0)
          (gcm_setiv ⟨zeroBlock, 0, 0,
            List.replicate 12 0 ++ be32bytes 1, List.replicate 16 0⟩
            (List.replicate 12 0))
          [[1, 2, 3]])
        (gcm_encrypt (fun _ => List.replicate 16 0)
          (runAAD (fun _ => List.replicate 16 0)
            (gcm_setiv ⟨zeroBlock, 0, 0,
              List.replicate 12 0 ++ be32bytes 1, List.replicate 16 0⟩
              (List.replicate 12 0))
            [[1, 2, 3]])
          [5, 6, 7] true).2 true =
      ((gcm_encrypt (fun _ => List.replicate 16 0)
          (runAAD (fun _ => List.replicate 16 0)
            (gcm_setiv ⟨zeroBlock, 0, 0,
              List.replicate 12 0 ++ be32bytes 1, List.replicate 16 0⟩
              (List.replicate 12 0))
            [[1, 2, 3]])
          [5, 6, 7] true).1, [5, 6, 7]) ∧
      (gcm_tag (fun _ => List.replicate 16 0)
        (gcm_decrypt (fun _ => List.replicate 16 0)
          (runAAD (fun _ => List.replicate 16 0)
            (gcm_setiv ⟨zeroBlock, 0, 0,
              List.replicate 12 0 ++ be32bytes 1, List.replicate 16 0⟩
              (List.replicate 12 0))
            [[1, 2, 3]])
          (gcm_encrypt (fun _ => List.replicate 16 0)
            (runAAD (fun _ => List.replicate 16 0)
              (gcm_setiv ⟨zeroBlock, 0, 0,
                List.replicate 12 0 ++ be32bytes 1, List.replicate 16 0⟩
                (List.replicate 12 0))
              [[1, 2, 3]])
            [5, 6, 7] true).2 true).1).2 =
      (gcm_tag (fun _ => List.replicate 16 0)
        (gcm_encrypt (fun _ => List.replicate 16 0)
          (runAAD (fun _ => List.replicate 16 0)
            (gcm_setiv ⟨zeroBlock, 0, 0,
              List.replicate 12 0 ++ be32bytes 1, List.replicate 16 0⟩
              (List.replicate 12 0))
            [[1, 2, 3]])
          [5, 6, 7] true).1).2) :=
  ⟨fun _ => rfl, rfl,
   encrypt_then_decrypt_roundtrip (fun _ => List.replicate 16 0)
     (fun _ => rfl) 0
     ⟨zeroBlock, 0, 0, List.replicate 12 0 ++ be32bytes 1,
       List.replicate 16 0⟩
     rfl (List.replicate 12 0) [[1, 2, 3]] [5, 6, 7]⟩

/-- C3 (amended): fragmentation invariance holds for partitions in which,
within each phase (AAD and data), every fragment except the last has a
length that is a multiple of 16 bytes: the final context, the
concatenated ciphertext and the tag all agree with the single-call
delivery. -/
theorem fragmentation_invariance (E : List Nat → List Nat)
    (ctx : GcmContext) (aadFrags dataFrags : List (List Nat))
    (hA : ∀ f ∈ aadFrags.dropLast, 16 ∣ f.length)
    (hD : ∀ f ∈ dataFrags.dropLast, 16 ∣ f.length)
    (hla : ctx.len_add < 2 ^ 64) (hld : ctx.len_data < 2 ^ 64) :
    runData E (runAAD E ctx aadFrags) dataFrags =
      gcm_encrypt E (gcm_encrypt E ctx aadFrags.flatten false).1
        dataFrags.flatten true ∧
    (gcm_tag E (runData E (runAAD E ctx aadFrags) dataFrags).1).2 =
      (gcm_tag E (gcm_encrypt E
        (gcm_encrypt E ctx aadFrags.flatten false).1
        dataFrags.flatten true).1).2 := by
  have h1 : runAAD E ctx aadFrags =
      (gcm_encrypt E ctx aadFrags.flatten false).1 :=
    runAAD_fragments E aadFrags ctx hA hla
  have hld2 : (runAAD E ctx aadFrags).len_data < 2 ^ 64 := by
    rw [(runAAD_frame E aadFrags ctx).1]
    exact hld
  have h2 := runData_fragments E dataFrags (runAAD E ctx aadFrags) hD hld2
  have hmain : runData E (runAAD E ctx aadFrags) dataFrags =
      gcm_encrypt E (gcm_encrypt E ctx aadFrags.flatten false).1
        dataFrags.flatten true := by
    rw [h2, h1]
    rfl
  exact ⟨hmain, by rw [hmain]⟩

/-- C3 witness: two AAD fragments (16 + 5 bytes) and three data
fragments (16 + 16 + 3 bytes) against the single-call delivery. -/
theorem fragmentation_invariance_witness :
    (∀ f ∈ ([List.replicate 16 1, List.replicate 5 2] :
        List (List Nat)).dropLast, 16 ∣ f.length) ∧
    (∀ f ∈ ([List.replicate 16 3, List.replicate 16 4, List.replicate 3 5] :
        List (List Nat)).dropLast, 16 ∣ f.length) ∧
    (⟨zeroBlock, 0, 0, List.replicate 12 0 ++ be32bytes 1,
        zeroBlock⟩ : GcmContext).len_add < 2 ^ 64 ∧
    (⟨zeroBlock, 0, 0, List.replicate 12 0 ++ be32bytes 1,
        zeroBlock⟩ : GcmContext).len_data < 2 ^ 64 ∧
    (runData (fun b => b)
        (runAAD (fun b => b)
          ⟨zeroBlock, 0, 0, List.replicate 12 0 ++ be32bytes 1, zeroBlock⟩
          [List.replicate 16 1, List.replicate 5 2])
        [List.replicate 16 3, List.replicate 16 4, List.replicate 3 5] =
      gcm_encrypt (fun b => b)
        (gcm_encrypt (fun b => b)
          ⟨zeroBlock, 0, 0, List.replicate 12 0 ++ be32bytes 1, zeroBlock⟩
          ([List.replicate 16 1, List.replicate 5 2] :
            List (List Nat)).flatten false).1
        ([List.replicate 16 3, List.replicate 16 4, List.replicate 3 5] :
          List (List Nat)).flatten true ∧
      (gcm_tag (fun b => b)
        (runData (fun b => b)
          (runAAD (fun b => b)
            ⟨zeroBlock, 0, 0, List.replicate 12 0 ++ be32bytes 1, zeroBlock⟩
            [List.replicate 16 1, List.replicate 5 2])
          [List.replicate 16 3, List.replicate 16 4,
            List.replicate 3 5]).1).2 =
      (gcm_tag (fun b => b) (gcm_encrypt (fun b => b)
        (gcm_encrypt (fun b => b)
          ⟨zeroBlock, 0, 0, List.replicate 12 0 ++ be32bytes 1, zeroBlock⟩
          ([List.replicate 16 1, List.replicate 5 2] :
            List (List Nat)).flatten false).1
        ([List.replicate 16 3, List.replicate 16 4, List.replicate 3 5] :
          List (List Nat)).flatten true).1).2) :=
  ⟨by decide, by decide, by decide, by decide,
   fragmentation_invariance (fun b => b)
     ⟨zeroBlock, 0, 0, List.replicate 12 0 ++ be32bytes 1, zeroBlock⟩
     [List.replicate 16 1, List.replicate 5 2]
     [List.replicate 16 3, List.replicate 16 4, List.replicate 3 5]
     (by decide) (by decide) (by decide) (by decide)⟩

/-- C3 counterexample: the claim as stated (any partition into contiguous
non-empty fragments) fails.  With the identity permutation as the
underlying cipher, a zero key-context and a zero 12-byte IV, splitting a
16-byte zero plaintext into 8 + 8 changes both the second half of the
ciphertext and the tag. -/
theorem fragmentation_any_partition_counterexample :
    ¬ ((runData (fun b => b)
          (gcm_setiv
            ⟨zeroBlock, 0, 0, List.replicate 12 0 ++ be32bytes 1, zeroBlock⟩
            (List.replicate 12 0))
          [List.replicate 8 0, List.replicate 8 0]).2 =
        (gcm_encrypt (fun b => b)
          (gcm_setiv
            ⟨zeroBlock, 0, 0, List.replicate 12 0 ++ be32bytes 1, zeroBlock⟩
            (List.replicate 12 0))
          (List.replicate 16 0) true).2 ∧
       (gcm_tag (fun b => b)
          (runData (fun b => b)
            (gcm_setiv
              ⟨zeroBlock, 0, 0, List.replicate 12 0 ++ be32bytes 1,
                zeroBlock⟩
              (List.replicate 12 0))
            [List.replicate 8 0, List.replicate 8 0]).1).2 =
        (gcm_tag (fun b => b)
          (gcm_encrypt (fun b => b)
            (gcm_setiv
              ⟨zeroBlock, 0, 0, List.replicate 12 0 ++ be32bytes 1,
                zeroBlock⟩
              (List.replicate 12 0))
            (List.replicate 16 0) true).1).2) := by
  decide

/-- C7: with the reduction table built by `gcm_cache` (for any key, since
the reduction table is key-independent), `gcm_multiply_x_8` agrees with
eight successive applications of `gcm_multiply_x`. -/
theorem gcm_multiply_x_8_eq_eight_mulx (key B : List Nat)
    (hlen : B.length = 16) (hb : ∀ x ∈ B, x < 256) :
    gcm_multiply_x_8 (gcm_cache key).1 B =
      gcm_multiply_x (gcm_multiply_x (gcm_multiply_x (gcm_multiply_x
        (gcm_multiply_x (gcm_multiply_x (gcm_multiply_x
          (gcm_multiply_x B))))))) := by
  have hne : B ≠ [] := by
    intro h
    rw [h] at hlen
    simp at hlen
  have hlast : B.getLastD 0 = B.getLast hne := by
    rw [List.getLastD_eq_getLast? 0 B, List.getLast?_eq_getLast B hne]
    rfl
  have hmB : B.getLast hne ∈ B := List.getLast_mem hne
  have hm256 : B.getLast hne < 256 := hb _ hmB
  have hdropb : ∀ x ∈ B.dropLast, x < 256 :=
    fun x hx => hb x (List.dropLast_subset B hx)
  have hdroplen : B.dropLast.length = 15 := by
    rw [List.length_dropLast, hlen]
  have hdropne : B.dropLast ≠ [] := by
    intro h
    rw [h] at hdroplen
    simp at hdroplen
  have hdecomp : gcm_xor_block (B.dropLast ++ [0])
      (List.replicate 15 0 ++ [B.getLast hne]) = B := by
    rw [gcm_xor_block, List.zipWith_append _ _ _ _ _ (by simp [hdroplen])]
    rw [show List.zipWith (fun a b => a ^^^ b) B.dropLast
        (List.replicate 15 0) =
      gcm_xor_block B.dropLast (List.replicate 15 0) from rfl,
      zip_zero_right _ 15 (by omega)]
    simp only [List.zipWith_cons_cons, List.zipWith_nil_right, Nat.zero_xor]
    exact List.dropLast_append_getLast hne
  have hmain : gcm_multiply_x_8 (gcm_cache key).1 B = mulx8iter B := by
    have h1 : gcm_multiply_x_8 (gcm_cache key).1 B =
        xorHead2 (rClosedPair (B.getLast hne)) (0 :: B.dropLast) := by
      unfold gcm_multiply_x_8
      rw [gcm_cache_fst, hlast]
      show xorHead2 (gcm_reduce_table.getD (B.getLast hne) (0, 0))
        (0 :: B.dropLast) = _
      rw [reduce_table_closed _ hm256]
    rw [h1, show rClosedPair (B.getLast hne) =
        (rClosed (B.getLast hne) / 256, rClosed (B.getLast hne) % 256)
      from rfl,
      xorHead2_as_zip _ _ B.dropLast hdroplen,
      ← mulx8iter_basis _ hm256,
      ← mulx8iter_shift B.dropLast hdropb hdropne,
      mulx8iter_eq_mulxPow, mulx8iter_eq_mulxPow,
      ← mulxPow_linear 8 _ _ (by simp [hdroplen]) ?hb1 ?hb2,
      hdecomp, mulx8iter_eq_mulxPow]
    case hb1 =>
      intro x hx
      rcases List.mem_append.mp hx with hx | hx
      · exact hdropb x hx
      · simp at hx
        omega
    case hb2 =>
      intro x hx
      rcases List.mem_append.mp hx with hx | hx
      · have := List.eq_of_mem_replicate hx
        omega
      · simp at hx
        omega
  exact hmain

/-- C7 witness at a concrete block and key. -/
theorem gcm_multiply_x_8_eq_eight_mulx_witness :
    (List.replicate 16 7).length = 16 ∧
      (∀ x ∈ List.replicate 16 7, x < 256) ∧
      gcm_multiply_x_8 (gcm_cache zeroBlock).1 (List.replicate 16 7) =
        gcm_multiply_x (gcm_multiply_x (gcm_multiply_x (gcm_multiply_x
          (gcm_multiply_x (gcm_multiply_x (gcm_multiply_x
            (gcm_multiply_x (List.replicate 16 7)))))))) :=
  ⟨by decide, by decide,
   gcm_multiply_x_8_eq_eight_mulx zeroBlock (List.replicate 16 7)
     (by decide) (by decide)⟩

/-- C8: `gcm_count` adds `delta` to the last four bytes read as a 32-bit
big-endian integer, modulo 2^32, and never modifies the first twelve
bytes. -/
theorem gcm_count_adds_be32_mod (ctr : List Nat) (delta : Nat)
    (h : ctr.length = 16) :
    (gcm_count ctr delta).take 12 = ctr.take 12 ∧
      beVal ((gcm_count ctr delta).drop 12) =
        (beVal (ctr.drop 12) + delta) % 2 ^ 32 :=
  gcm_count_split ctr delta h

/-- C8 witness: incrementing a counter whose field is 0xffffffff wraps
to 0 without touching the first twelve bytes. -/
theorem gcm_count_adds_be32_mod_witness :
    ([1, 2, 3, 4, 5, 6, 7, 8, 9, 10, 11, 12, 0xff, 0xff, 0xff, 0xff] :
        List Nat).length = 16 ∧
      ((gcm_count [1, 2, 3, 4, 5, 6, 7, 8, 9, 10, 11, 12,
            0xff, 0xff, 0xff, 0xff] 1).take 12 =
          ([1, 2, 3, 4, 5, 6, 7, 8, 9, 10, 11, 12,
            0xff, 0xff, 0xff, 0xff] : List Nat).take 12 ∧
        beVal ((gcm_count [1, 2, 3, 4, 5, 6, 7, 8, 9, 10, 11, 12,
            0xff, 0xff, 0xff, 0xff] 1).drop 12) =
          (beVal (([1, 2, 3, 4, 5, 6, 7, 8, 9, 10, 11, 12,
            0xff, 0xff, 0xff, 0xff] : List Nat).drop 12) + 1) % 2 ^ 32) :=
  ⟨by decide,
   gcm_count_adds_be32_mod
     [1, 2, 3, 4, 5, 6, 7, 8, 9, 10, 11, 12, 0xff, 0xff, 0xff, 0xff] 1
     (by decide)⟩

/-- C9: `gcm_setkey` succeeds exactly when the underlying cipher's
`cipher_setkey` returns 0, and otherwise returns the cipher's status
code unchanged; the remaining operations (`gcm_setiv`, `gcm_encrypt`,
`gcm_decrypt`, `gcm_tag`) are total functions with no error result. -/
theorem gcm_setkey_error_passthrough (E : List Nat → List Nat) (rc : Int) :
    gcm_setkey E rc =
      if rc = 0 then
        Except.ok
          { hash := zeroBlock, len_add := 0, len_data := 0,
            ctr := List.replicate 12 0 ++ be32bytes 1, key := E zeroBlock }
      else Except.error rc := by
  by_cases h : rc = 0 <;> simp [gcm_setkey, h]

/-- C5: after a successful `gcm_setkey` the hash key equals the cipher's
encryption of the all-zero block, and the counter block is zero except
for a big-endian 1 in the 32-bit counter field; the hash and lengths are
zero. -/
theorem gcm_setkey_initial_state (E : List Nat → List Nat) (rc : Int)
    (ctx : GcmContext) (h : gcm_setkey E rc = Except.ok ctx) :
    ctx.key = E zeroBlock ∧
      ctx.ctr = List.replicate 12 0 ++ [0, 0, 0, 1] ∧
      ctx.hash = zeroBlock ∧ ctx.len_add = 0 ∧ ctx.len_data = 0 := by
  by_cases hrc : rc = 0
  · rw [gcm_setkey_error_passthrough, if_pos hrc] at h
    cases h
    exact ⟨rfl, rfl, rfl, rfl, rfl⟩
  · rw [gcm_setkey_error_passthrough, if_neg hrc] at h
    cases h

/-- C5 witness: a cipher accepting the key (status 0) yields the stated
context. -/
theorem gcm_setkey_initial_state_witness :
    gcm_setkey (fun _ => List.replicate 16 0) 0 =
        Except.ok
          { hash := zeroBlock, len_add := 0, len_data := 0,
            ctr := List.replicate 12 0 ++ be32bytes 1,
            key := List.replicate 16 0 } ∧
      (({ hash := zeroBlock, len_add := 0, len_data := 0,
            ctr := List.replicate 12 0 ++ be32bytes 1,
            key := List.replicate 16 0 } : GcmContext).key =
          (fun _ => List.replicate 16 0) zeroBlock ∧
        ({ hash := zeroBlock, len_add := 0, len_data := 0,
            ctr := List.replicate 12 0 ++ be32bytes 1,
            key := List.replicate 16 0 } : GcmContext).ctr =
          List.replicate 12 0 ++ [0, 0, 0, 1] ∧
        ({ hash := zeroBlock, len_add := 0, len_data := 0,
            ctr := List.replicate 12 0 ++ be32bytes 1,
            key := List.replicate 16 0 } : GcmContext).hash = zeroBlock ∧
        ({ hash := zeroBlock, len_add := 0, len_data := 0,
            ctr := List.replicate 12 0 ++ be32bytes 1,
            key := List.replicate 16 0 } : GcmContext).len_add = 0 ∧
        ({ hash := zeroBlock, len_add := 0, len_data := 0,
            ctr := List.replicate 12 0 ++ be32bytes 1,
            key := List.replicate 16 0 } : GcmContext).len_data = 0) :=
  ⟨rfl, gcm_setkey_initial_state (fun _ => List.replicate 16 0) 0 _ rfl⟩

/-- C6: `gcm_setiv` with a twelve-byte IV yields the counter block
IV ‖ 0x00000001, with the hash and lengths zeroed. -/
theorem gcm_setiv_twelve_byte (ctx : GcmContext) (iv : List Nat)
    (h : iv.length = 12) :
    (gcm_setiv ctx iv).ctr = iv ++ [0, 0, 0, 1] ∧
      (gcm_setiv ctx iv).hash = zeroBlock ∧
      (gcm_setiv ctx iv).len_add = 0 ∧ (gcm_setiv ctx iv).len_data = 0 := by
  rw [gcm_setiv]
  simp only [h, if_pos]
  exact ⟨by norm_num [be32bytes], trivial, trivial, trivial⟩

/-- C6 witness at a concrete twelve-byte IV. -/
theorem gcm_setiv_twelve_byte_witness :
    ([1, 2, 3, 4, 5, 6, 7, 8, 9, 10, 11, 12] : List Nat).length = 12 ∧
      ((gcm_setiv ⟨zeroBlock, 0, 0, zeroBlock, zeroBlock⟩
            [1, 2, 3, 4, 5, 6, 7, 8, 9, 10, 11, 12]).ctr =
          [1, 2, 3, 4, 5, 6, 7, 8, 9, 10, 11, 12] ++ [0, 0, 0, 1] ∧
        (gcm_setiv ⟨zeroBlock, 0, 0, zeroBlock, zeroBlock⟩
            [1, 2, 3, 4, 5, 6, 7, 8, 9, 10, 11, 12]).hash = zeroBlock ∧
        (gcm_setiv ⟨zeroBlock, 0, 0, zeroBlock, zeroBlock⟩
            [1, 2, 3, 4, 5, 6, 7, 8, 9, 10, 11, 12]).len_add = 0 ∧
        (gcm_setiv ⟨zeroBlock, 0, 0, zeroBlock, zeroBlock⟩
            [1, 2, 3, 4, 5, 6, 7, 8, 9, 10, 11, 12]).len_data = 0) :=
  ⟨rfl, gcm_setiv_twelve_byte ⟨zeroBlock, 0, 0, zeroBlock, zeroBlock⟩
    [1, 2, 3, 4, 5, 6, 7, 8, 9, 10, 11, 12] rfl⟩

/-- C10: `gcm_tag` assigns no field of the context, so it leaves the
context exactly as it found it, and a second call writes the same
tag. -/
theorem gcm_tag_preserves_context (E : List Nat → List Nat)
    (ctx : GcmContext) :
    (gcm_tag E ctx).1 = ctx ∧
      (gcm_tag E (gcm_tag E ctx).1).2 = (gcm_tag E ctx).2 := by
  refine ⟨rfl, rfl⟩

end GCM
